import Mathlib

/-!
# Witcher Tracker: a shallow embedding of the command interpreter

This file embeds the C++ sources of the Witcher Tracker project
(`Utils.cpp` tokenizer/classifier, `Inventory.cpp` command engine,
`Monster.cpp`/`Potion.cpp` data classes, `main.cpp` driver) as Lean
definitions, and proves properties of the embedding.

Modelling conventions, used consistently below:

* `std::vector<std::string> words` indexing `words[i]` is modelled with
  `wd w i` (`List.getD` with default `""`); every reachable access in the
  source is in bounds, and where the source would read out of bounds
  (undefined behaviour) the model reads the sentinel `""`.
* `std::map<std::string, T>` is modelled as a key-sorted association list
  with `findV` / `setV` / `eraseV`; `std::set<std::string>` as a sorted
  list with `insertSet`.  Iteration in the source is iteration over the
  sorted list here.
* `std::stoi` is modelled by `stoi?`; `none` models a thrown exception
  (`std::invalid_argument` on an empty/non-numeric string,
  `std::out_of_range` when the value exceeds `INT_MAX = 2147483647`).
  All call sites in the source are guarded by `Utils::is_integer`, so the
  model is exercised only on all-digit tokens, where it agrees exactly
  with `std::stoi`.  `Option`-valued functions propagate `none` as an
  uncaught C++ exception (which terminates the program).
* C++ `int` arithmetic away from the `stoi` boundary is modelled with
  unbounded `Int` (signed overflow is undefined behaviour in the source,
  so no wrap-around semantics is ascribed to it).
* Loops of the form `while (true)` that the source only exits via
  `return`/`break` are given explicit fuel; all reachable executions
  terminate well before the fuel runs out, and fuel exhaustion is mapped
  to `none` (divergence/UB marker).
-/

/-- C locale whitespace, the `\s` class of the tokenizing regex
`[^\s,?]+|[?,]` in `Utils::split_line`. -/
def isSpaceChar (c : Char) : Bool :=
  c = ' ' || c = '\t' || c = '\n' || c = '\x0b' || c = '\x0c' || c = '\r'

/-- `words[i]` access; out-of-range reads (UB in the source) give `""`. -/
def wd (w : List String) (i : Nat) : String := w.getD i ""

/-- `line[i]` access; out-of-range reads (UB in the source) give `'\x00'`. -/
def cd (line : String) (i : Nat) : Char := line.toList.getD i '\x00'

/-- Numeric value of an all-digit string (the value `std::stoi` returns
when it does not throw). -/
def digitsVal (s : String) : Nat :=
  s.toList.foldl (fun a c => a * 10 + (c.toNat - 48)) 0

/-- `Utils::is_alphabetical`: every character passes `isalpha` (ASCII
letters in the "C" locale).  As in the source, the empty string passes. -/
def is_alphabetical (s : String) : Bool := s.toList.all Char.isAlpha

/-- `Utils::is_integer`: every character passes `isdigit`.  As in the
source, the empty string passes. -/
def is_integer (s : String) : Bool := s.toList.all Char.isDigit

/-- `std::stoi` on the tokens this program feeds it: an all-digit,
nonempty string converts to its value when it fits in `int`
(`INT_MAX = 2147483647`); otherwise `std::stoi` throws
(`std::invalid_argument` or `std::out_of_range`), modelled as `none`. -/
def stoi? (s : String) : Option Int :=
  if s.toList ≠ [] ∧ is_integer s = true ∧ digitsVal s ≤ 2147483647 then
    some (digitsVal s)
  else none

/-- One step of `Utils::split_line`'s regex scan: a character is a token
character iff it is not whitespace, a comma or a question mark. -/
def isWordChar (c : Char) : Bool := !(isSpaceChar c || c = ',' || c = '?')

/-- The token scan of `Utils::split_line` over the character list:
maximal runs matching `[^\s,?]+` become tokens, each `,` or `?` is its
own token, whitespace is skipped. -/
def splitCharsF : Nat → List Char → List String
  | _, [] => []
  | 0, _ :: _ => []
  | fuel + 1, c :: cs =>
    if c = ',' || c = '?' then String.mk [c] :: splitCharsF fuel cs
    else if isSpaceChar c then splitCharsF fuel cs
    else String.mk (c :: cs.takeWhile isWordChar) :: splitCharsF fuel (cs.dropWhile isWordChar)

/-- `Utils::split_line`.  The fuel `line.length` bounds the scan: every
step consumes at least one character, so exhaustion is unreachable. -/
def splitLine (line : String) : List String :=
  splitCharsF line.toList.length line.toList

/-- The same scan, additionally recording the position (index into the
raw line) at which each token starts.  This is not in the source; it is
used only to state, in the spec's own terms, where a token actually
lies in the raw line. -/
def splitCharsPF : Nat → Nat → List Char → List (String × Nat)
  | _, _, [] => []
  | 0, _, _ :: _ => []
  | fuel + 1, pos, c :: cs =>
    if c = ',' || c = '?' then (String.mk [c], pos) :: splitCharsPF fuel (pos + 1) cs
    else if isSpaceChar c then splitCharsPF fuel (pos + 1) cs
    else
      (String.mk (c :: cs.takeWhile isWordChar), pos) ::
        splitCharsPF fuel (pos + 1 + (cs.takeWhile isWordChar).length) (cs.dropWhile isWordChar)

/-- Tokens of a line together with their true start positions. -/
def splitLineP (line : String) : List (String × Nat) :=
  splitCharsPF line.toList.length 0 line.toList

/-- `std::string::find`: index of the first occurrence of `pat` in
`line`, or `line.length` standing in for `npos` when absent (every
reachable call searches for a token of the line, which does occur). -/
def strFindAux (pat : List Char) : List Char → Nat
  | [] => 0
  | c :: cs => if pat.isPrefixOf (c :: cs) then 0 else strFindAux pat cs + 1

/-- `line.find(pat)` on strings. -/
def strFind (line pat : String) : Nat := strFindAux pat.toList line.toList

/-- `<` on `String` is by definition list order on the character data.
The library decides it with an iterator-based procedure that does not
reduce in the kernel; this instance decides the same proposition by
structural recursion, so closed map operations evaluate. -/
instance (priority := 2000) strDecLt (a b : String) : Decidable (a < b) :=
  decidable_of_iff (a.toList < b.toList) String.lt_iff_toList_lt.symm

/-- Same for `≤` (which holds iff the reversed `<` fails). -/
instance (priority := 2000) strDecLe (a b : String) : Decidable (a ≤ b) :=
  decidable_of_iff (a.toList ≤ b.toList) String.le_iff_toList_le.symm

/-! ## Ordered maps and sets (`std::map<std::string,T>`, `std::set<std::string>`) -/

/-- `std::map::find` (as an optional value lookup). -/
def findV {α : Type} : List (String × α) → String → Option α
  | [], _ => none
  | (k, v) :: rest, key => if k = key then some v else findV rest key

/-- `std::map` insert-or-assign (`m[k] = v`), keeping keys sorted. -/
def setV {α : Type} : List (String × α) → String → α → List (String × α)
  | [], key, v => [(key, v)]
  | (k, w) :: rest, key, v =>
    if key < k then (key, v) :: (k, w) :: rest
    else if key = k then (key, v) :: rest
    else (k, w) :: setV rest key v

/-- `std::map::erase(k)`. -/
def eraseV {α : Type} : List (String × α) → String → List (String × α)
  | [], _ => []
  | (k, v) :: rest, key => if k = key then rest else (k, v) :: eraseV rest key

/-- `std::set<std::string>::insert`: ordered insert, no duplicates. -/
def insertSet : List String → String → List String
  | [], x => [x]
  | y :: ys, x =>
    if x < y then x :: y :: ys
    else if x = y then y :: ys
    else y :: insertSet ys x

/-- Strict key-sortedness: the representation invariant of `std::map`
(and, on plain lists, of `std::set`). -/
def KeysSorted {α : Type} (m : List (String × α)) : Prop :=
  m.Pairwise (fun a b => a.1 < b.1)

/-- Sortedness of a modelled `std::set`. -/
def SetSorted (l : List String) : Prop := l.Pairwise (· < ·)

theorem findV_eq_none_of_not_mem {α : Type} (m : List (String × α)) (k : String)
    (h : k ∉ m.map Prod.fst) : findV m k = none := by
  induction m with
  | nil => rfl
  | cons p rest ih =>
    obtain ⟨k0, v0⟩ := p
    simp only [List.map_cons, List.mem_cons, not_or] at h
    have hne : ¬(k0 = k) := fun he => h.1 he.symm
    simp only [findV, if_neg hne]
    exact ih h.2

theorem mem_setV {α : Type} (m : List (String × α)) (k : String) (v : α)
    (b : String × α) (hb : b ∈ setV m k v) : b = (k, v) ∨ b ∈ m := by
  induction m with
  | nil => simp [setV] at hb; simp [hb]
  | cons p rest ih =>
    obtain ⟨k0, v0⟩ := p
    by_cases h1 : k < k0
    · simp only [setV, if_pos h1, List.mem_cons] at hb
      rcases hb with h | h | h
      · exact Or.inl h
      · exact Or.inr (by simp [h])
      · exact Or.inr (by simp [h])
    · by_cases h2 : k = k0
      · simp only [setV, if_neg h1, if_pos h2, List.mem_cons] at hb
        rcases hb with h | h
        · exact Or.inl h
        · exact Or.inr (by simp [h])
      · simp only [setV, if_neg h1, if_neg h2, List.mem_cons] at hb
        rcases hb with h | h
        · exact Or.inr (by simp [h])
        · rcases ih h with h' | h'
          · exact Or.inl h'
          · exact Or.inr (by simp [h'])

theorem findV_setV_self {α : Type} (m : List (String × α)) (k : String) (v : α) :
    findV (setV m k v) k = some v := by
  induction m with
  | nil => simp [setV, findV]
  | cons p rest ih =>
    obtain ⟨k0, v0⟩ := p
    by_cases h1 : k < k0
    · simp [setV, findV, h1]
    · by_cases h2 : k = k0
      · simp [setV, findV, h1, h2]
      · simp [setV, findV, h1, h2, Ne.symm h2, ih]

theorem findV_setV_ne {α : Type} (m : List (String × α)) (k k' : String) (v : α)
    (h : k' ≠ k) : findV (setV m k v) k' = findV m k' := by
  induction m with
  | nil => simp [setV, findV, Ne.symm h]
  | cons p rest ih =>
    obtain ⟨k0, v0⟩ := p
    by_cases h1 : k < k0
    · simp [setV, findV, h1, Ne.symm h]
    · by_cases h2 : k = k0
      · subst h2
        simp [setV, findV, h1, Ne.symm h]
      · simp [setV, findV, h1, h2, ih]

theorem findV_eraseV_self {α : Type} (m : List (String × α)) (k : String)
    (hs : KeysSorted m) : findV (eraseV m k) k = none := by
  induction m with
  | nil => rfl
  | cons p rest ih =>
    obtain ⟨k0, v0⟩ := p
    rw [KeysSorted, List.pairwise_cons] at hs
    by_cases h : k0 = k
    · subst h
      simp only [eraseV, if_pos rfl]
      refine findV_eq_none_of_not_mem rest k0 (fun hmem => ?_)
      obtain ⟨q, hq, he⟩ := List.mem_map.1 hmem
      exact absurd he.symm (ne_of_lt (hs.1 q hq))
    · simp [eraseV, findV, h, ih hs.2]

theorem findV_eraseV_ne {α : Type} (m : List (String × α)) (k k' : String)
    (h : k' ≠ k) : findV (eraseV m k) k' = findV m k' := by
  induction m with
  | nil => simp [eraseV]
  | cons p rest ih =>
    obtain ⟨k0, v0⟩ := p
    by_cases h0 : k0 = k
    · subst h0
      simp [eraseV, findV, Ne.symm h]
    · simp [eraseV, findV, h0, ih]

theorem setV_keysSorted {α : Type} (m : List (String × α)) (k : String) (v : α)
    (hs : KeysSorted m) : KeysSorted (setV m k v) := by
  induction m with
  | nil => simp [setV, KeysSorted]
  | cons p rest ih =>
    obtain ⟨k0, v0⟩ := p
    rw [KeysSorted, List.pairwise_cons] at hs
    by_cases h1 : k < k0
    · rw [KeysSorted, setV]
      simp only [if_pos h1]
      refine List.Pairwise.cons ?_ (List.Pairwise.cons hs.1 hs.2)
      intro b hb
      rcases List.mem_cons.1 hb with h | h
      · simp [h, h1]
      · exact lt_trans h1 (hs.1 b h)
    · by_cases h2 : k = k0
      · subst h2
        rw [KeysSorted, setV]
        simp only [if_neg h1, if_pos rfl]
        exact List.Pairwise.cons hs.1 hs.2
      · have hk0 : k0 < k := by
          rcases lt_trichotomy k k0 with h | h | h
          · exact absurd h h1
          · exact absurd h h2
          · exact h
        unfold KeysSorted at ih ⊢
        rw [setV]
        simp only [if_neg h1, if_neg h2]
        refine List.Pairwise.cons ?_ (ih hs.2)
        intro b hb
        rcases mem_setV rest k v b hb with h | h
        · simp [h, hk0]
        · exact hs.1 b h

theorem keysSorted_nodup {α : Type} (m : List (String × α)) (hs : KeysSorted m) :
    (m.map Prod.fst).Nodup := by
  induction m with
  | nil => simp
  | cons p rest ih =>
    rw [KeysSorted, List.pairwise_cons] at hs
    simp only [List.map_cons, List.nodup_cons]
    refine ⟨fun hmem => ?_, ih hs.2⟩
    obtain ⟨q, hq, he⟩ := List.mem_map.1 hmem
    exact absurd he.symm (ne_of_lt (hs.1 q hq))

theorem insertSet_mem (l : List String) (x y : String) :
    y ∈ insertSet l x ↔ y = x ∨ y ∈ l := by
  induction l with
  | nil => simp [insertSet]
  | cons z zs ih =>
    rcases lt_trichotomy x z with h1 | h1 | h1
    · rw [insertSet, if_pos h1]
      simp only [List.mem_cons]
    · subst h1
      rw [insertSet, if_neg (lt_irrefl x), if_pos rfl]
      simp only [List.mem_cons]
      tauto
    · rw [insertSet, if_neg (asymm h1), if_neg (ne_of_gt h1)]
      simp only [List.mem_cons, ih]
      tauto

/-! ## Data model (`Potion.h`, `Monster.h`, `Inventory.h`) -/

/-- `class Potion`: the formula (ingredient, required quantity) list. -/
structure Potion where
  ingredients : List (String × Int)
deriving DecidableEq

/-- `class Monster`: signs and potions known to be effective. -/
structure Monster where
  signs_against : List String
  potions_against : List String
deriving DecidableEq

/-- `class Inventory`: the five `std::map`s of the world model. -/
structure Inventory where
  ingredients : List (String × Int)
  trophies : List (String × Int)
  potion_counts : List (String × Int)
  potions : List (String × Potion)
  monsters : List (String × Monster)
deriving DecidableEq

/-- The freshly constructed (empty) inventory of `main.cpp`. -/
def initInventory : Inventory := ⟨[], [], [], [], []⟩

/-- `Monster::add_sign` (a `std::set` insert). -/
def Monster.add_sign (M : Monster) (s : String) : Monster :=
  { M with signs_against := insertSet M.signs_against s }

/-- `Monster::add_potion` (a `std::set` insert). -/
def Monster.add_potion (M : Monster) (p : String) : Monster :=
  { M with potions_against := insertSet M.potions_against p }

/-- The strict-weak-order comparator of `Potion::get_ingredients`
(`std::sort`): descending quantity, ties by ascending name.  `ingBefore`
is its reflexive closure `fun a b => not (cmp b a)`, which characterises
the (unique, since equivalent elements are equal pairs) sorted result. -/
def ingBefore (a b : String × Int) : Bool :=
  if a.2 = b.2 then a.1 ≤ b.1 else b.2 < a.2

/-- Ordered insert for the `std::sort` of `Potion::get_ingredients`. -/
def insertIng (x : String × Int) : List (String × Int) → List (String × Int)
  | [] => [x]
  | y :: ys => if ingBefore x y then x :: y :: ys else y :: insertIng x ys

/-- The sort performed by `Potion::get_ingredients`.  `std::sort` with a
strict weak order whose equivalence classes are singletons produces the
unique sorted permutation, which insertion sort also produces. -/
def sortIngs (l : List (String × Int)) : List (String × Int) := l.foldr insertIng []

/-- `Potion::get_ingredients`. -/
def Potion.get_ingredients (P : Potion) : List (String × Int) := sortIngs P.ingredients

/-! ## Command engine (`Inventory.cpp`) -/

/-- `Inventory::add_ingredient`. -/
def add_ingredient (ing : List (String × Int)) (name : String) (count : Int) :
    List (String × Int) :=
  match findV ing name with
  | some v => setV ing name (v + count)
  | none => setV ing name count

/-- `Inventory::decrease_trophy`. -/
def decrease_trophy (tr : List (String × Int)) (name : String) (count : Int) :
    List (String × Int) :=
  match findV tr name with
  | none => tr
  | some v => if v - count ≤ 0 then eraseV tr name else setV tr name (v - count)

/-- `Inventory::use_ingredient`. -/
def use_ingredient (ing : List (String × Int)) (name : String) (count : Int) :
    List (String × Int) :=
  match findV ing name with
  | none => ing
  | some v => if v - count ≤ 0 then eraseV ing name else setV ing name (v - count)

/-- The ingredient-adding loop of `Inventory::handle_loot` (also the
second, textually identical loop of `Inventory::handle_trade`): starting
at token `i`, add `(count, name)` pairs while `i < word_count - 1`
(written `i + 2 ≤ w.length`, which agrees with the C++ `int` comparison
for every word count). -/
def lootAddLoopF (w : List String) : Nat → List (String × Int) → Nat →
    Option (List (String × Int))
  | 0, ing, _ => some ing
  | fuel + 1, ing, i =>
    if i + 2 ≤ w.length then
      match stoi? (wd w i) with
      | none => none
      | some cnt => lootAddLoopF w fuel (add_ingredient ing (wd w (i + 1)) cnt) (i + 3)
    else some ing

/-- Entry point with fuel `w.length`, which exhausts only when the loop
guard is already false (each iteration advances `i` by 3). -/
def lootAddLoop (w : List String) (ing : List (String × Int)) (i : Nat) :
    Option (List (String × Int)) :=
  lootAddLoopF w w.length ing i

/-- `Inventory::handle_loot`. -/
def handle_loot (st : Inventory) (w : List String) : Option (Inventory × String) :=
  (lootAddLoop w st.ingredients 2).map
    (fun ing => ({ st with ingredients := ing }, "Alchemy ingredients obtained"))

/-- The first (`while (true)`) loop of `Inventory::handle_trade`:
collect `trophies_to_trade` checking sufficiency against the trophy
ledger; `some none` models the early `"Not enough trophies"` return,
`some (some (m, i))` the `break` at the `"for"` keyword with the map `m`
and the resumption index `i`.  Fuel exceeds any reachable iteration
count; running out models the source never exiting its loop. -/
def tradeCollect (w : List String) (tr : List (String × Int)) :
    Nat → Nat → List (String × Int) → Option (Option (List (String × Int) × Nat))
  | 0, _, _ => none
  | fuel + 1, i, acc =>
    match stoi? (wd w i) with
    | none => none
    | some cnt =>
      match findV tr (wd w (i + 1)) with
      | none => some none
      | some v =>
        if v < cnt then some none
        else
          let acc' := setV acc (wd w (i + 1)) cnt
          if wd w (i + 3) = "for" then some (some (acc', i + 4))
          else tradeCollect w tr fuel (i + 3) acc'

/-- `Inventory::handle_trade`. -/
def handle_trade (st : Inventory) (w : List String) : Option (Inventory × String) :=
  match tradeCollect w st.trophies (w.length + 1) 2 [] with
  | none => none
  | some none => some (st, "Not enough trophies")
  | some (some (m, i)) =>
    let tr := m.foldl (fun t p => decrease_trophy t p.1 p.2) st.trophies
    match lootAddLoop w st.ingredients i with
    | none => none
    | some ing => some ({ st with trophies := tr, ingredients := ing }, "Trade successful")

/-- `Inventory::handle_brew`. -/
def handle_brew (st : Inventory) (w : List String) : Inventory × String :=
  let potion_name := String.intercalate " " (w.drop 2)
  match findV st.potions potion_name with
  | none => (st, "No formula for " ++ potion_name)
  | some P =>
    let ingredients_needed := P.get_ingredients
    if ingredients_needed.all
        (fun p => match findV st.ingredients p.1 with
                  | none => false
                  | some v => p.2 ≤ v) then
      ({ st with
          ingredients := ingredients_needed.foldl
            (fun g p => use_ingredient g p.1 p.2) st.ingredients,
          potion_counts := setV st.potion_counts potion_name
            ((findV st.potion_counts potion_name).getD 0 + 1) },
        "Alchemy item created: " ++ potion_name)
    else (st, "Not enough ingredients")

/-- `Inventory::handle_sign_knowledge`. -/
def handle_sign_knowledge (st : Inventory) (w : List String) : Inventory × String :=
  let sign_name := wd w 2
  let monster_name := wd w 7
  match findV st.monsters monster_name with
  | none =>
    ({ st with monsters := setV st.monsters monster_name (Monster.add_sign ⟨[], []⟩ sign_name) },
      "New bestiary entry added: " ++ monster_name)
  | some M =>
    if sign_name ∈ M.signs_against then (st, "Already known effectiveness")
    else
      ({ st with monsters := setV st.monsters monster_name (M.add_sign sign_name) },
        "Bestiary entry updated: " ++ monster_name)

/-- Index of the first `"potion"` token at position ≥ 2: where the name
scans of `detect_sentence_type`, `handle_potion_knowledge` and
`handle_potion_recipe` stop.  `none` means no such token; the handlers'
unguarded `while` loops are reached only after classification guaranteed
one exists. -/
def firstPotionIdx (w : List String) : Option Nat :=
  ((w.drop 2).findIdx? (fun t => t = "potion")).map (fun j => j + 2)

/-- The multi-word name accumulated by those scans: tokens `2 .. k-1`
joined by single spaces. -/
def scannedName (w : List String) (k : Nat) : String :=
  String.intercalate " " ((w.drop 2).take (k - 2))

/-- `Inventory::handle_potion_knowledge`.  `none` models the source's
unguarded name scan never finding `"potion"` (unreachable after
classification). -/
def handle_potion_knowledge (st : Inventory) (w : List String) :
    Option (Inventory × String) :=
  match firstPotionIdx w with
  | none => none
  | some k =>
    let potion_name := scannedName w k
    let monster_name := wd w (k + 4)
    match findV st.monsters monster_name with
    | none =>
      some ({ st with monsters := setV st.monsters monster_name (Monster.add_potion ⟨[], []⟩ potion_name) },
        "New bestiary entry added: " ++ monster_name)
    | some M =>
      if potion_name ∈ M.potions_against then some (st, "Already known effectiveness")
      else
        some ({ st with monsters := setV st.monsters monster_name (M.add_potion potion_name) },
          "Bestiary entry updated: " ++ monster_name)

/-- The formula-collecting loop of `Inventory::handle_potion_recipe`
(guard `curr_index < word_count - 1`, written `i + 2 ≤ w.length`). -/
def collectIngsF (w : List String) : Nat → Nat → Option (List (String × Int))
  | 0, _ => some []
  | fuel + 1, i =>
    if i + 2 ≤ w.length then
      match stoi? (wd w i) with
      | none => none
      | some cnt => (collectIngsF w fuel (i + 3)).map (fun rest => (wd w (i + 1), cnt) :: rest)
    else some []

/-- Entry point with fuel `w.length` (exhaustion unreachable). -/
def collectIngs (w : List String) (i : Nat) : Option (List (String × Int)) :=
  collectIngsF w w.length i

/-- `Inventory::handle_potion_recipe`. -/
def handle_potion_recipe (st : Inventory) (w : List String) :
    Option (Inventory × String) :=
  match firstPotionIdx w with
  | none => none
  | some k =>
    let potion_name := scannedName w k
    match findV st.potions potion_name with
    | some P =>
      if 0 < P.get_ingredients.length then some (st, "Already known formula")
      else
        (collectIngs w (k + 3)).map
          (fun f => ({ st with potions := setV st.potions potion_name ⟨f⟩ },
            "New alchemy formula obtained: " ++ potion_name))
    | none =>
      (collectIngs w (k + 3)).map
        (fun f => ({ st with potions := setV st.potions potion_name ⟨f⟩ },
          "New alchemy formula obtained: " ++ potion_name))

/-- `Inventory::use_one_potion_each`: iterate the monster's effective
potions (a sorted `std::set`), consuming one of each that is in stock. -/
def useOnePotions (pc : List (String × Int)) (pots : List String) : List (String × Int) :=
  pots.foldl
    (fun m p =>
      match findV m p with
      | some c =>
        if 0 < c then (if c - 1 = 0 then eraseV m p else setV m p (c - 1)) else m
      | none => m)
    pc

/-- The trophy award at the end of `Inventory::handle_encounter`. -/
def trophyAward (tr : List (String × Int)) (m : String) : List (String × Int) :=
  match findV tr m with
  | none => setV tr m 1
  | some t => setV tr m (t + 1)

/-- `Inventory::handle_encounter`. -/
def handle_encounter (st : Inventory) (w : List String) : Inventory × String :=
  let monster_name := wd w 3
  match findV st.monsters monster_name with
  | none => (st, "Geralt is unprepared and barely escapes with his life")
  | some M =>
    if M.signs_against.length = 0 ∧ M.potions_against.length = 0 then
      (st, "Geralt is unprepared and barely escapes with his life")
    else if M.signs_against.length = 0 then
      if M.potions_against.any
          (fun p => match findV st.potion_counts p with
                    | some c => 0 < c
                    | none => false) then
        ({ st with potion_counts := useOnePotions st.potion_counts M.potions_against,
                   trophies := trophyAward st.trophies monster_name },
          "Geralt defeats " ++ monster_name)
      else (st, "Geralt is unprepared and barely escapes with his life")
    else
      ({ st with potion_counts := useOnePotions st.potion_counts M.potions_against,
                 trophies := trophyAward st.trophies monster_name },
        "Geralt defeats " ++ monster_name)

/-! ## Read-only queries (`Inventory.cpp`) -/

/-- `Inventory::get_ingredient_count`. -/
def get_ingredient_count (st : Inventory) (name : String) : Int :=
  (findV st.ingredients name).getD 0

/-- The `"<count> <name>, ..."` join shared by the three total-listing
printers (iteration over the sorted map). -/
def joinCounts (m : List (String × Int)) : String :=
  String.intercalate ", " (m.map (fun p => toString p.2 ++ " " ++ p.1))

/-- `Inventory::print_ingredients`. -/
def print_ingredients (st : Inventory) : String :=
  if st.ingredients.length = 0 then "None" else joinCounts st.ingredients

/-- `Inventory::get_potion_count` (name from tokens `2 .. wc-2`). -/
def get_potion_count (st : Inventory) (w : List String) : Int :=
  (findV st.potion_counts (String.intercalate " " ((w.drop 2).dropLast))).getD 0

/-- `Inventory::print_potions`. -/
def print_potions (st : Inventory) : String :=
  if st.potion_counts.length = 0 then "None" else joinCounts st.potion_counts

/-- `Inventory::get_trophy_count`. -/
def get_trophy_count (st : Inventory) (name : String) : Int :=
  (findV st.trophies name).getD 0

/-- `Inventory::print_trophies`. -/
def print_trophies (st : Inventory) : String :=
  if st.trophies.length = 0 then "None" else joinCounts st.trophies

/-- `std::merge` on two sorted string ranges (stable: on ties the first
range's element comes first). -/
def mergeStrF : Nat → List String → List String → List String
  | _, [], ys => ys
  | _, xs, [] => xs
  | 0, _ :: _, _ :: _ => []
  | fuel + 1, x :: xs, y :: ys =>
    if y < x then y :: mergeStrF fuel (x :: xs) ys else x :: mergeStrF fuel xs (y :: ys)

/-- Entry point with fuel covering both ranges (exhaustion unreachable). -/
def mergeStr (xs ys : List String) : List String :=
  mergeStrF (xs.length + ys.length) xs ys

/-- `Inventory::print_monster_knowledge`. -/
def print_monster_knowledge (st : Inventory) (monster_name : String) : String :=
  match findV st.monsters monster_name with
  | none => "No knowledge of " ++ monster_name
  | some M =>
    if M.signs_against = [] ∧ M.potions_against = [] then
      "No knowledge of " ++ monster_name
    else String.intercalate ", " (mergeStr M.signs_against M.potions_against)

/-- `Inventory::print_potion_formula` (name from tokens `3 .. wc-2`). -/
def print_potion_formula (st : Inventory) (w : List String) : String :=
  let potion_name := String.intercalate " " ((w.drop 3).dropLast)
  match findV st.potions potion_name with
  | none => "No formula for " ++ potion_name
  | some P =>
    let ings := P.get_ingredients
    if ings = [] then "No formula for " ++ potion_name
    else String.intercalate ", " (ings.map (fun p => toString p.2 ++ " " ++ p.1))

/-! ## Classifier (`Utils.cpp`) -/

/-- The alphabetic check of `Utils::is_valid_potion_name` over the token
range `start_index .. end_index` (inclusive). -/
def allAlphaRangeF (w : List String) (e : Nat) : Nat → Nat → Bool
  | 0, _ => true
  | fuel + 1, i =>
    if i ≤ e then is_alphabetical (wd w i) && allAlphaRangeF w e fuel (i + 1) else true

/-- Entry point with fuel `e + 1 - i`, the loop's exact iteration count
(at fuel 0 the guard is false, so the values agree). -/
def allAlphaRange (w : List String) (i e : Nat) : Bool :=
  allAlphaRangeF w e (e + 1 - i) i

/-- The double-space scan of `Utils::is_valid_potion_name` over raw-line
positions `i .. e-1` (checking characters `i` and `i+1`).  Only the
literal space character `' '` is compared, as in the source. -/
def noDoubleSpaceF (line : String) (e : Nat) : Nat → Nat → Bool
  | 0, _ => true
  | fuel + 1, i =>
    if i < e then
      if cd line i = ' ' ∧ cd line (i + 1) = ' ' then false
      else noDoubleSpaceF line e fuel (i + 1)
    else true

/-- Entry point with fuel `e - i`, the loop's exact iteration count. -/
def noDoubleSpace (line : String) (i e : Nat) : Bool :=
  noDoubleSpaceF line e (e - i) i

/-- `Utils::is_valid_potion_name`.  Note that the span scanned for
double spaces runs from the *first occurrence* of the first token's
string in the raw line to the end of the *first occurrence* of the last
token's string, exactly as `line.find` computes it. -/
def is_valid_potion_name (line : String) (w : List String) (start_index end_index : Nat) : Bool :=
  let start_word := wd w start_index
  let end_word := wd w end_index
  let start_index_in_line := strFind line start_word
  let end_index_in_line := strFind line end_word + end_word.length - 1
  allAlphaRange w start_index end_index &&
    noDoubleSpace line start_index_in_line end_index_in_line

/-- `Utils::detect_type`. -/
def detect_type (w : List String) : Int :=
  if w.length = 0 then -1
  else if wd w (w.length - 1) = "?" then 1
  else if wd w 0 = "Exit" ∧ w.length = 1 then 2
  else 0

/-- The group loop of `Utils::is_valid_loot` (and, verbatim in the
source, the second loop of `Utils::is_valid_trade`), guard
`curr_index < word_count - 1` written `i + 2 ≤ w.length`, comma check
condition `curr_index + 2 < word_count - 1` written `i + 4 ≤ w.length`. -/
def lootCheckLoopF (w : List String) : Nat → Nat → Option Bool
  | 0, _ => some true
  | fuel + 1, i =>
    if i + 2 ≤ w.length then
      if is_integer (wd w i) = false then some false
      else
        match stoi? (wd w i) with
        | none => none
        | some cnt =>
          if cnt ≤ 0 then some false
          else if is_alphabetical (wd w (i + 1)) = false then some false
          else if i + 4 ≤ w.length ∧ wd w (i + 2) ≠ "," then some false
          else lootCheckLoopF w fuel (i + 3)
    else some true

/-- Entry point with fuel `w.length` (exhaustion unreachable). -/
def lootCheckLoop (w : List String) (i : Nat) : Option Bool :=
  lootCheckLoopF w w.length i

/-- `Utils::is_valid_loot`. -/
def is_valid_loot (w : List String) : Option Bool :=
  if w.length % 3 ≠ 1 ∨ w.length < 4 then some false
  else lootCheckLoop w 2

/-- The first (`while (true)`) loop of `Utils::is_valid_trade`:
`some none` models `return false`, `some (some i)` the `break` past the
`"for"` keyword. -/
def tradeCheckSec1 (w : List String) : Nat → Nat → Option (Option Nat)
  | 0, _ => none
  | fuel + 1, i =>
    if is_integer (wd w i) = false then some none
    else
      match stoi? (wd w i) with
      | none => none
      | some cnt =>
        if cnt ≤ 0 then some none
        else if is_alphabetical (wd w (i + 1)) = false then some none
        else if wd w (i + 3) = "for" then
          if wd w (i + 2) ≠ "trophy" then some none else some (some (i + 4))
        else if wd w (i + 2) ≠ "," then some none
        else tradeCheckSec1 w fuel (i + 3)

/-- `Utils::is_valid_trade`. -/
def is_valid_trade (w : List String) : Option Bool :=
  match tradeCheckSec1 w (w.length + 1) 2 with
  | none => none
  | some none => some false
  | some (some i) =>
    if (w.length - i) % 3 ≠ 2 then some false
    else lootCheckLoop w i

/-- `Utils::is_valid_sign_knowledge`. -/
def is_valid_sign_knowledge (w : List String) : Bool :=
  if w.length ≠ 8 then false
  else if wd w 4 = "is" ∧ wd w 5 = "effective" ∧ wd w 6 = "against" then
    is_alphabetical (wd w 2) && is_alphabetical (wd w 7)
  else false

/-- `Utils::is_valid_potion_knowledge`. -/
def is_valid_potion_knowledge (w : List String) (curr : Nat) : Bool :=
  if wd w (curr + 2) = "effective" ∧ wd w (curr + 3) = "against" then
    if wd w (curr + 4) ≠ wd w (w.length - 1) then false
    else is_alphabetical (wd w (curr + 4))
  else false

/-- The group loop of `Utils::is_valid_potion_recipe` (bounds are
`curr_index <= word_count - 1`, written `i + 1 ≤ w.length`, and
`curr_index + 2 <= word_count - 1`, written `i + 3 ≤ w.length`, agreeing
with the C++ `int` comparisons for every word count). -/
def recipeCheckLoopF (w : List String) : Nat → Nat → Option Bool
  | 0, _ => some true
  | fuel + 1, i =>
    if i + 1 ≤ w.length then
      if is_integer (wd w i) = false then some false
      else
        match stoi? (wd w i) with
        | none => none
        | some cnt =>
          if cnt ≤ 0 then some false
          else if is_alphabetical (wd w (i + 1)) = false then some false
          else if i + 3 ≤ w.length ∧ wd w (i + 2) ≠ "," then some false
          else recipeCheckLoopF w fuel (i + 3)
    else some true

/-- Entry point with fuel `w.length` (exhaustion unreachable). -/
def recipeCheckLoop (w : List String) (i : Nat) : Option Bool :=
  recipeCheckLoopF w w.length i

/-- `Utils::is_valid_potion_recipe`; the `int cnt = word_count -
curr_index; cnt % 3 != 2` test uses C++ truncated `%`, i.e. `Int.tmod`. -/
def is_valid_potion_recipe (w : List String) (i : Nat) : Option Bool :=
  if Int.tmod ((w.length : Int) - (i : Int)) 3 ≠ 2 then some false
  else recipeCheckLoop w i

/-- `Utils::is_valid_encounter`. -/
def is_valid_encounter (w : List String) : Bool :=
  if w.length ≠ 4 then false else is_alphabetical (wd w 3)

/-- `Utils::detect_sentence_type`. -/
def detect_sentence_type (line : String) (w : List String) : Option Int :=
  if wd w 0 ≠ "Geralt" then some (-1)
  else if w.length ≤ 2 then some (-1)
  else if wd w 2 = "," then some (-1)
  else if wd w (w.length - 1) = "," then some (-1)
  else if wd w 1 = "loots" then
    (is_valid_loot w).map (fun b => if b then 0 else -1)
  else if wd w 1 = "trades" then
    (is_valid_trade w).map (fun b => if b then 1 else -1)
  else if wd w 1 = "brews" then
    some (if is_valid_potion_name line w 2 (w.length - 1) then 2 else -1)
  else if wd w 1 = "learns" then
    if w.length < 8 then some (-1)
    else if wd w 3 = "sign" then
      some (if is_valid_sign_knowledge w then 3 else -1)
    else
      match firstPotionIdx w with
      | none => some (-1)
      | some k =>
        if is_valid_potion_name line w 2 (k - 1) = false then some (-1)
        else if wd w k ≠ "potion" then some (-1)
        else if wd w (k + 1) = "is" then
          some (if is_valid_potion_knowledge w k then 4 else -1)
        else if wd w (k + 1) = "consists" ∧ wd w (k + 2) = "of" then
          (is_valid_potion_recipe w (k + 3)).map (fun b => if b then 5 else -1)
        else some (-1)
  else if wd w 1 = "encounters" ∧ wd w 2 = "a" then
    some (if is_valid_encounter w then 6 else -1)
  else some (-1)

/-- The scan for the terminal `"?"` in the `What is in` branch of
`Utils::detect_question_type`: the loop stops at the first `"?"` token
at position ≥ 3, or at `word_count`. -/
def qMarkIdx (w : List String) : Nat :=
  3 + (((w.drop 3).findIdx? (fun t => t = "?")).getD (w.length - 3))

/-- `Utils::detect_question_type`. -/
def detect_question_type (line : String) (w : List String) : Int :=
  if wd w 0 = "Total" ∧ wd w 1 = "ingredient" ∧ wd w 2 ≠ "?" ∧ w.length = 4 then
    (if is_alphabetical (wd w 2) then 0 else -1)
  else if wd w 0 = "Total" ∧ wd w 1 = "ingredient" ∧ wd w 2 = "?" ∧ w.length = 3 then 1
  else if wd w 0 = "Total" ∧ wd w 1 = "potion" then
    (if w.length = 3 ∧ wd w 2 = "?" then 3
     else if is_valid_potion_name line w 2 (w.length - 2) = false then -1
     else if wd w (w.length - 1) ≠ "?" then -1
     else 2)
  else if wd w 0 = "Total" ∧ wd w 1 = "trophy" ∧ w.length = 3 ∧ wd w 2 = "?" then 5
  else if wd w 0 = "Total" ∧ wd w 1 = "trophy" ∧ w.length = 4 ∧ is_alphabetical (wd w 2) = true then
    (if wd w (w.length - 1) ≠ "?" then -1 else 4)
  else if wd w 0 = "What" ∧ wd w 1 = "is" ∧ wd w 2 = "effective" ∧ wd w 3 = "against" then
    (if w.length ≠ 6 then -1
     else if is_alphabetical (wd w 4) = false then -1
     else 6)
  else if wd w 0 = "What" ∧ wd w 1 = "is" ∧ wd w 2 = "in" then
    (let k := qMarkIdx w
     if is_valid_potion_name line w 3 (k - 1) = false then -1
     else if wd w k ≠ "?" then -1
     else if w.length = k + 1 then 7
     else -1)
  else -1

/-! ## Driver (`main.cpp`) -/

/-- One line of output, or the `Exit` termination. -/
inductive Output where
  | text (s : String)
  | exitCmd
deriving DecidableEq

/-- `execute_line` of `main.cpp` (tokenize, classify, dispatch); `none`
models the process dying from an uncaught exception. -/
def execute_line (st : Inventory) (line : String) : Option (Inventory × Output) :=
  let w := splitLine line
  let t := detect_type w
  if t = 2 then some (st, Output.exitCmd)
  else if t = 1 then
    let q := detect_question_type line w
    if q = 0 then some (st, Output.text (toString (get_ingredient_count st (wd w 2))))
    else if q = 1 then some (st, Output.text (print_ingredients st))
    else if q = 2 then some (st, Output.text (toString (get_potion_count st w)))
    else if q = 3 then some (st, Output.text (print_potions st))
    else if q = 4 then some (st, Output.text (toString (get_trophy_count st (wd w 2))))
    else if q = 5 then some (st, Output.text (print_trophies st))
    else if q = 6 then some (st, Output.text (print_monster_knowledge st (wd w 4)))
    else if q = 7 then some (st, Output.text (print_potion_formula st w))
    else some (st, Output.text "INVALID")
  else if t = 0 then
    match detect_sentence_type line w with
    | none => none
    | some s =>
      if s = 0 then (handle_loot st w).map (fun r => (r.1, Output.text r.2))
      else if s = 1 then (handle_trade st w).map (fun r => (r.1, Output.text r.2))
      else if s = 2 then some ((handle_brew st w).1, Output.text (handle_brew st w).2)
      else if s = 3 then some ((handle_sign_knowledge st w).1, Output.text (handle_sign_knowledge st w).2)
      else if s = 4 then (handle_potion_knowledge st w).map (fun r => (r.1, Output.text r.2))
      else if s = 5 then (handle_potion_recipe st w).map (fun r => (r.1, Output.text r.2))
      else if s = 6 then some ((handle_encounter st w).1, Output.text (handle_encounter st w).2)
      else some (st, Output.text "INVALID")
  else some (st, Output.text "INVALID")

/-- The read loop of `main`: stop on the exact line `"Exit"` (checked
before interpretation), on the `Exit` command, or if the process dies. -/
def runLines : Inventory → List String → Inventory
  | st, [] => st
  | st, l :: ls =>
    if l = "Exit" then st
    else
      match execute_line st l with
      | none => st
      | some (st', Output.exitCmd) => st'
      | some (st', Output.text _) => runLines st' ls

/-! ## General helper lemmas -/

theorem wd_cons_succ (a : String) (l : List String) (i : Nat) :
    wd (a :: l) (i + 1) = wd l i := rfl

theorem wd_append (pre l : List String) (j : Nat) :
    wd (pre ++ l) (pre.length + j) = wd l j := by
  induction pre with
  | nil => simp [wd]
  | cons a p ih =>
    have h : (a :: p).length + j = (p.length + j) + 1 := by
      simp [List.length_cons]
      omega
    rw [h]
    show wd (a :: (p ++ l)) ((p.length + j) + 1) = wd l j
    rw [wd_cons_succ]
    exact ih

theorem wd_lt_of_ne (w : List String) (i : Nat) (h : wd w i ≠ "") : i < w.length := by
  by_contra hc
  push_neg at hc
  exact h (List.getD_eq_default w "" (by omega))

theorem drop_wd_cons (w : List String) (i : Nat) (h : i < w.length) :
    w.drop i = wd w i :: w.drop (i + 1) := by
  rw [List.drop_eq_getElem_cons h]
  congr 1
  simp [wd, List.getD_eq_getElem?_getD, List.getElem?_eq_getElem h]

theorem mem_of_wd (w : List String) (i : Nat) (h : i < w.length) : wd w i ∈ w := by
  rw [wd, List.getD_eq_getElem?_getD, List.getElem?_eq_getElem h]
  exact List.getElem_mem h

theorem stoi?_facts (s : String) (v : Int) (h : stoi? s = some v) :
    s ≠ "" ∧ is_integer s = true ∧ (0 : Int) ≤ v := by
  rw [stoi?] at h
  split at h
  · rename_i hc
    refine ⟨fun he => hc.1 (by rw [he]; rfl), hc.2.1, ?_⟩
    cases h
    exact Int.ofNat_nonneg _
  · cases h

/-! ## Claim C6: multi-word name validation -/

theorem allAlphaRangeF_iff (w : List String) (e : Nat) :
    ∀ fuel i, e + 1 - i ≤ fuel →
      (allAlphaRangeF w e fuel i = true ↔
        ∀ j, i ≤ j → j ≤ e → is_alphabetical (wd w j) = true) := by
  intro fuel
  induction fuel with
  | zero =>
    intro i hn
    rw [allAlphaRangeF]
    exact ⟨fun _ j hj1 hj2 => by omega, fun _ => rfl⟩
  | succ n ih =>
    intro i hn
    rw [allAlphaRangeF]
    by_cases h : i ≤ e
    · rw [if_pos h, Bool.and_eq_true, ih (i + 1) (by omega)]
      constructor
      · rintro ⟨h1, h2⟩ j hj1 hj2
        rcases Nat.eq_or_lt_of_le hj1 with he | hl
        · rw [← he]; exact h1
        · exact h2 j hl hj2
      · intro hall
        exact ⟨hall i le_rfl h, fun j hj1 hj2 => hall j (by omega) hj2⟩
    · rw [if_neg h]
      exact ⟨fun _ j hj1 hj2 => by omega, fun _ => rfl⟩

theorem allAlphaRange_iff (w : List String) (i e : Nat) :
    allAlphaRange w i e = true ↔
      ∀ j, i ≤ j → j ≤ e → is_alphabetical (wd w j) = true :=
  allAlphaRangeF_iff w e (e + 1 - i) i le_rfl

theorem noDoubleSpaceF_iff (line : String) (e : Nat) :
    ∀ fuel i, e - i ≤ fuel →
      (noDoubleSpaceF line e fuel i = true ↔
        ∀ j, i ≤ j → j < e → ¬(cd line j = ' ' ∧ cd line (j + 1) = ' ')) := by
  intro fuel
  induction fuel with
  | zero =>
    intro i hn
    rw [noDoubleSpaceF]
    exact ⟨fun _ j hj1 hj2 => by omega, fun _ => rfl⟩
  | succ n ih =>
    intro i hn
    rw [noDoubleSpaceF]
    by_cases h : i < e
    · rw [if_pos h]
      by_cases hsp : cd line i = ' ' ∧ cd line (i + 1) = ' '
      · rw [if_pos hsp]
        constructor
        · intro hfalse; cases hfalse
        · intro hall
          exact absurd hsp (hall i le_rfl h)
      · rw [if_neg hsp, ih (i + 1) (by omega)]
        constructor
        · intro h2 j hj1 hj2
          rcases Nat.eq_or_lt_of_le hj1 with he | hl
          · rw [← he]; exact hsp
          · exact h2 j hl hj2
        · intro hall j hj1 hj2
          exact hall j (by omega) hj2
    · rw [if_neg h]
      exact ⟨fun _ j hj1 hj2 => by omega, fun _ => rfl⟩

theorem noDoubleSpace_iff (line : String) (i e : Nat) :
    noDoubleSpace line i e = true ↔
      ∀ j, i ≤ j → j < e → ¬(cd line j = ' ' ∧ cd line (j + 1) = ' ') :=
  noDoubleSpaceF_iff line e (e - i) i le_rfl

/-- Adjacent-whitespace detector used to state the spec's "no two
consecutive whitespace characters" condition over a character span. -/
def hasDoubleWS : List Char → Bool
  | c :: d :: rest => (isSpaceChar c && isSpaceChar d) || hasDoubleWS (d :: rest)
  | _ => false

/-- The name-validity predicate exactly as the spec words it (claim C6):
every token in the range is alphabetic-only, and the substring of the
original raw line from the start of the range's first token to the end
of its last token (located by the tokenizer's true positions) contains
no two consecutive whitespace characters. -/
def spec_name_ok (line : String) (s e : Nat) : Bool :=
  let toks := splitLineP line
  ((toks.drop s).take (e + 1 - s)).all (fun p => is_alphabetical p.1) &&
    match toks[s]?, toks[e]? with
    | some (_, ps), some (we, pe) =>
        !(hasDoubleWS ((line.toList.drop ps).take (pe + we.length - ps)))
    | _, _ => true

/-- C6 counterexample: the claim states a name passes validation iff all
its tokens are alphabetic and the raw-line span of the name has no two
consecutive whitespace characters.  Two concrete refutations of the
"only if" direction: in `"Geralt brews Swallow  Swallow"` the name
tokens 2..3 span `"Swallow  Swallow"` (a double space), yet
`is_valid_potion_name` accepts, because `line.find` locates the *first*
occurrence of `"Swallow"` for both endpoints and so scans the empty
span; in `"Geralt brews A\t\tB"` the span holds two consecutive tabs,
yet the source compares only `' '` characters and accepts. -/
theorem c6_counterexample :
    (is_valid_potion_name "Geralt brews Swallow  Swallow"
        (splitLine "Geralt brews Swallow  Swallow") 2 3 = true ∧
      spec_name_ok "Geralt brews Swallow  Swallow" 2 3 = false) ∧
    (is_valid_potion_name "Geralt brews A\t\tB"
        (splitLine "Geralt brews A\t\tB") 2 3 = true ∧
      spec_name_ok "Geralt brews A\t\tB" 2 3 = false) := by
  exact ⟨⟨by decide, by decide⟩, ⟨by decide, by decide⟩⟩

/-- C6 (amended): `Utils::is_valid_potion_name` accepts a token range
iff every token in the range is alphabetic-only and the raw-line span
from the *first occurrence* (via `line.find`) of the first token's
string to the end of the *first occurrence* of the last token's string
contains no two consecutive space (`' '`, 0x20) characters. -/
theorem c6_name_validation (line : String) (w : List String) (s e : Nat) :
    is_valid_potion_name line w s e = true ↔
      ((∀ j, s ≤ j → j ≤ e → is_alphabetical (wd w j) = true) ∧
       (∀ j, strFind line (wd w s) ≤ j →
          j < strFind line (wd w e) + (wd w e).length - 1 →
          ¬(cd line j = ' ' ∧ cd line (j + 1) = ' '))) := by
  rw [is_valid_potion_name]
  simp only [Bool.and_eq_true]
  rw [allAlphaRange_iff, noDoubleSpace_iff]

/-- C6 amended-claim sanity witness: a well-formed single-spaced name is
accepted, via the amended theorem at a concrete input. -/
theorem c6_name_validation_witness :
    is_valid_potion_name "Geralt brews Black Blood"
      (splitLine "Geralt brews Black Blood") 2 3 = true :=
  (c6_name_validation "Geralt brews Black Blood"
    (splitLine "Geralt brews Black Blood") 2 3).mpr
    ⟨by decide, by decide⟩

/-! ## Claim C3: invalid lines -/

/-- C3: the spec asserts a line that fails the grammar always yields the
single response `"INVALID"`, never crashes, and changes no state — and
that digit-by-digit pre-validation makes every `std::stoi` call safe.
The code refutes the no-crash guarantee: on
`"Geralt loots 99999999999999999999 5arp"` (grammar-invalid: the name
token `"5arp"` is not alphabetic) the loot validator passes the all-digit
check on the 20-digit count token and then calls `std::stoi` on it,
which throws `std::out_of_range` (modelled `none`) and kills the
process before `"INVALID"` can be produced, for every inventory state. -/
theorem c3_invalid_crash (st : Inventory) :
    execute_line st "Geralt loots 99999999999999999999 5arp" = none := rfl

/-! ## Claim C8: potion formula query -/

/-- The comparator of `Potion::get_ingredients` as a relation (the
reflexive "may precede" order of the `std::sort` call). -/
def ingLe (a b : String × Int) : Prop := ingBefore a b = true

instance : DecidableRel ingLe :=
  fun a b => inferInstanceAs (Decidable (ingBefore a b = true))

theorem ingLe_iff (a b : String × Int) :
    ingLe a b ↔ (b.2 < a.2 ∨ (a.2 = b.2 ∧ a.1 ≤ b.1)) := by
  rw [ingLe, ingBefore]
  by_cases h : a.2 = b.2 <;> simp [h]

instance : IsTotal (String × Int) ingLe := by
  constructor
  intro a b
  rw [ingLe_iff, ingLe_iff]
  rcases lt_trichotomy a.2 b.2 with h | h | h
  · exact Or.inr (Or.inl h)
  · rcases le_total a.1 b.1 with h1 | h1
    · exact Or.inl (Or.inr ⟨h, h1⟩)
    · exact Or.inr (Or.inr ⟨h.symm, h1⟩)
  · exact Or.inl (Or.inl h)

instance : IsTrans (String × Int) ingLe := by
  constructor
  intro a b c hab hbc
  rw [ingLe_iff] at hab hbc ⊢
  rcases hab with h1 | ⟨h1, h1'⟩
  · rcases hbc with h2 | ⟨h2, _⟩
    · exact Or.inl (lt_trans h2 h1)
    · exact Or.inl (h2 ▸ h1)
  · rcases hbc with h2 | ⟨h2, h2'⟩
    · exact Or.inl (h1 ▸ h2)
    · exact Or.inr ⟨h1.trans h2, le_trans h1' h2'⟩

theorem insertIng_eq (x : String × Int) (l : List (String × Int)) :
    insertIng x l = List.orderedInsert ingLe x l := by
  induction l with
  | nil => rfl
  | cons y ys ih =>
    by_cases h : ingBefore x y = true
    · simp [insertIng, List.orderedInsert, h, ingLe]
    · simp [insertIng, List.orderedInsert, h, ingLe, ih]

theorem sortIngs_eq (l : List (String × Int)) :
    sortIngs l = List.insertionSort ingLe l := by
  induction l with
  | nil => rfl
  | cons x xs ih =>
    show insertIng x (sortIngs xs) = List.orderedInsert ingLe x (List.insertionSort ingLe xs)
    rw [ih, insertIng_eq]

theorem sortIngs_perm (l : List (String × Int)) : List.Perm l (sortIngs l) := by
  rw [sortIngs_eq]
  exact (List.perm_insertionSort ingLe l).symm

theorem sortIngs_sorted (l : List (String × Int)) : (sortIngs l).Pairwise ingLe := by
  rw [sortIngs_eq]
  exact List.sorted_insertionSort ingLe l

theorem sortIngs_eq_nil_iff (l : List (String × Int)) : sortIngs l = [] ↔ l = [] := by
  constructor
  · intro h
    have hl := (sortIngs_perm l).length_eq
    rw [h] at hl
    exact List.length_eq_zero.1 (by simpa using hl)
  · intro h
    rw [h]
    rfl

/-- C8: the potion-formula query prints the no-formula message when the
potion has no stored formula or an empty one, and otherwise prints the
stored ingredients as `"<qty> <name>"` comma-joined in descending
required quantity, ties broken by ascending ingredient name. -/
theorem c8_formula_query (st : Inventory) (w : List String) (n : String)
    (hn : n = String.intercalate " " ((w.drop 3).dropLast)) :
    (findV st.potions n = none →
        print_potion_formula st w = "No formula for " ++ n) ∧
    (∀ P, findV st.potions n = some P → P.ingredients = [] →
        print_potion_formula st w = "No formula for " ++ n) ∧
    (∀ P, findV st.potions n = some P → P.ingredients ≠ [] →
        ∃ L, List.Perm P.ingredients L ∧
          L.Pairwise (fun a b => b.2 < a.2 ∨ (a.2 = b.2 ∧ a.1 ≤ b.1)) ∧
          print_potion_formula st w =
            String.intercalate ", " (L.map (fun p => toString p.2 ++ " " ++ p.1))) := by
  subst hn
  refine ⟨?_, ?_, ?_⟩
  · intro h
    simp only [print_potion_formula, h]
  · intro P hP he
    simp only [print_potion_formula, hP, Potion.get_ingredients, he]
    rfl
  · intro P hP hne
    refine ⟨sortIngs P.ingredients, sortIngs_perm _,
      (sortIngs_sorted P.ingredients).imp (fun h => (ingLe_iff _ _).1 h), ?_⟩
    have hnil : ¬(sortIngs P.ingredients = []) := fun h => hne ((sortIngs_eq_nil_iff _).1 h)
    simp only [print_potion_formula, hP, Potion.get_ingredients, if_neg hnil]

/-- C8 witness: a concrete three-ingredient formula (with a quantity
tie) printed by the query, via the theorem. -/
theorem c8_formula_query_witness :
    ∃ L, List.Perm ([("Vitriol", 2), ("Rebis", 3), ("Aloe", (2 : Int))]) L ∧
      L.Pairwise (fun a b => b.2 < a.2 ∨ (a.2 = b.2 ∧ a.1 ≤ b.1)) ∧
      print_potion_formula
        (⟨[], [], [], [("Swallow", ⟨[("Vitriol", 2), ("Rebis", 3), ("Aloe", 2)]⟩)], []⟩ : Inventory)
        (splitLine "What is in Swallow ?") =
        String.intercalate ", " (L.map (fun p => toString p.2 ++ " " ++ p.1)) :=
  (c8_formula_query
      (⟨[], [], [], [("Swallow", ⟨[("Vitriol", 2), ("Rebis", 3), ("Aloe", 2)]⟩)], []⟩ : Inventory)
      (splitLine "What is in Swallow ?") "Swallow" (by decide)).2.2
    ⟨[("Vitriol", 2), ("Rebis", 3), ("Aloe", 2)]⟩ (by decide) (by decide)

/-! ## Claim C7: encounters -/

theorem eraseV_sublist {α : Type} (m : List (String × α)) (k : String) :
    List.Sublist (eraseV m k) m := by
  induction m with
  | nil => simp [eraseV]
  | cons p rest ih =>
    obtain ⟨k0, v0⟩ := p
    by_cases h : k0 = k
    · simp only [eraseV, if_pos h]
      exact List.sublist_cons_self _ _
    · simp only [eraseV, if_neg h]
      exact List.Sublist.cons₂ _ ih

theorem eraseV_keysSorted {α : Type} (m : List (String × α)) (k : String)
    (hs : KeysSorted m) : KeysSorted (eraseV m k) :=
  hs.sublist (eraseV_sublist m k)

/-- "Potion `p` is in stock": present in the potion ledger with a
positive count. -/
def InStock (st : Inventory) (p : String) : Prop :=
  ∃ c, findV st.potion_counts p = some c ∧ 0 < c

theorem any_instock_iff (st : Inventory) (pots : List String) :
    (pots.any (fun p =>
        match findV st.potion_counts p with
        | some c => 0 < c
        | none => false) = true) ↔ ∃ p ∈ pots, InStock st p := by
  rw [List.any_eq_true]
  constructor
  · rintro ⟨p, hp, hc⟩
    refine ⟨p, hp, ?_⟩
    rcases hfind : findV st.potion_counts p with _ | c
    · rw [hfind] at hc; cases hc
    · rw [hfind] at hc
      exact ⟨c, hfind, by simpa using hc⟩
  · rintro ⟨p, hp, c, hfind, hc⟩
    exact ⟨p, hp, by simp [hfind, hc]⟩

/-- One step of `Inventory::use_one_potion_each`. -/
def usePotionStep (m : List (String × Int)) (p : String) : List (String × Int) :=
  match findV m p with
  | some c => if 0 < c then (if c - 1 = 0 then eraseV m p else setV m p (c - 1)) else m
  | none => m

theorem useOnePotions_eq_foldl (pc : List (String × Int)) (pots : List String) :
    useOnePotions pc pots = pots.foldl usePotionStep pc := by
  rw [useOnePotions]
  rfl

theorem usePotionStep_keysSorted (m : List (String × Int)) (p : String)
    (hs : KeysSorted m) : KeysSorted (usePotionStep m p) := by
  rw [usePotionStep]
  rcases findV m p with _ | c
  · exact hs
  · dsimp only
    by_cases h1 : 0 < c
    · rw [if_pos h1]
      by_cases h2 : c - 1 = 0
      · rw [if_pos h2]; exact eraseV_keysSorted m p hs
      · rw [if_neg h2]; exact setV_keysSorted m p (c - 1) hs
    · rw [if_neg h1]; exact hs

theorem usePotionStep_find_self (m : List (String × Int)) (p : String)
    (hs : KeysSorted m) :
    findV (usePotionStep m p) p =
      match findV m p with
      | some c => if 0 < c then (if c = 1 then none else some (c - 1)) else some c
      | none => none := by
  rw [usePotionStep]
  rcases hf : findV m p with _ | c
  · simp [hf]
  · dsimp only
    by_cases h1 : 0 < c
    · rw [if_pos h1, if_pos h1]
      by_cases h2 : c - 1 = 0
      · rw [if_pos h2, if_pos (by omega : c = 1)]
        exact findV_eraseV_self m p hs
      · rw [if_neg h2, if_neg (by omega : ¬(c = 1))]
        exact findV_setV_self m p (c - 1)
    · rw [if_neg h1, if_neg h1]
      exact hf

theorem usePotionStep_find_ne (m : List (String × Int)) (p n : String)
    (hne : n ≠ p) : findV (usePotionStep m p) n = findV m n := by
  rw [usePotionStep]
  rcases findV m p with _ | c
  · rfl
  · dsimp only
    by_cases h1 : 0 < c
    · rw [if_pos h1]
      by_cases h2 : c - 1 = 0
      · rw [if_pos h2]; exact findV_eraseV_ne m p n hne
      · rw [if_neg h2]; exact findV_setV_ne m p n (c - 1) hne
    · rw [if_neg h1]

theorem useOnePotions_find (pots : List String) :
    ∀ pc, KeysSorted pc → pots.Nodup → ∀ n,
      findV (useOnePotions pc pots) n =
        if n ∈ pots then
          match findV pc n with
          | some c => if 0 < c then (if c = 1 then none else some (c - 1)) else some c
          | none => none
        else findV pc n := by
  induction pots with
  | nil =>
    intro pc _ _ n
    simp [useOnePotions]
  | cons p rest ih =>
    intro pc hks hnd n
    rw [List.nodup_cons] at hnd
    rw [useOnePotions_eq_foldl, List.foldl_cons, ← useOnePotions_eq_foldl]
    rw [ih (usePotionStep pc p) (usePotionStep_keysSorted pc p hks) hnd.2 n]
    by_cases hn : n = p
    · subst hn
      rw [if_neg hnd.1, if_pos (List.mem_cons_self n rest)]
      exact usePotionStep_find_self pc n hks
    · rw [usePotionStep_find_ne pc p n hn]
      by_cases hr : n ∈ rest
      · rw [if_pos hr, if_pos (List.mem_cons_of_mem p hr)]
      · rw [if_neg hr, if_neg (by simp [hn, hr])]

theorem trophyAward_find_self (tr : List (String × Int)) (m : String) :
    findV (trophyAward tr m) m = some ((findV tr m).getD 0 + 1) := by
  rw [trophyAward]
  rcases hf : findV tr m with _ | t
  · simpa using findV_setV_self tr m 1
  · simpa [hf] using findV_setV_self tr m (t + 1)

theorem trophyAward_find_ne (tr : List (String × Int)) (m n : String) (hne : n ≠ m) :
    findV (trophyAward tr m) n = findV tr n := by
  rw [trophyAward]
  rcases findV tr m with _ | t
  · exact findV_setV_ne tr m n 1 hne
  · exact findV_setV_ne tr m n (t + 1) hne

/-- C7: an encounter is unprepared (no state change) when the monster is
unknown, known with no effective signs or potions, or known with only
effective potions none of which is in stock; otherwise one unit of each
in-stock effective potion is consumed, the monster's trophy count is
incremented (or initialised to 1), and the defeat response names the
monster. -/
theorem c7_encounter (st : Inventory) (w : List String)
    (hks : KeysSorted st.potion_counts) :
    (findV st.monsters (wd w 3) = none →
        handle_encounter st w = (st, "Geralt is unprepared and barely escapes with his life")) ∧
    (∀ M, findV st.monsters (wd w 3) = some M → M.signs_against = [] → M.potions_against = [] →
        handle_encounter st w = (st, "Geralt is unprepared and barely escapes with his life")) ∧
    (∀ M, findV st.monsters (wd w 3) = some M → M.signs_against = [] →
        (∀ p ∈ M.potions_against, ¬ InStock st p) →
        handle_encounter st w = (st, "Geralt is unprepared and barely escapes with his life")) ∧
    (∀ M, findV st.monsters (wd w 3) = some M → M.potions_against.Nodup →
        (M.signs_against ≠ [] ∨ ∃ p ∈ M.potions_against, InStock st p) →
        (handle_encounter st w).2 = "Geralt defeats " ++ wd w 3 ∧
        (handle_encounter st w).1.ingredients = st.ingredients ∧
        (handle_encounter st w).1.potions = st.potions ∧
        (handle_encounter st w).1.monsters = st.monsters ∧
        findV (handle_encounter st w).1.trophies (wd w 3) =
          some ((findV st.trophies (wd w 3)).getD 0 + 1) ∧
        (∀ n, n ≠ wd w 3 → findV (handle_encounter st w).1.trophies n = findV st.trophies n) ∧
        (∀ n, findV (handle_encounter st w).1.potion_counts n =
          if n ∈ M.potions_against then
            match findV st.potion_counts n with
            | some c => if 0 < c then (if c = 1 then none else some (c - 1)) else some c
            | none => none
          else findV st.potion_counts n)) := by
  refine ⟨?_, ?_, ?_, ?_⟩
  · intro h
    rw [handle_encounter, h]
  · intro M hM hs hp
    rw [handle_encounter, hM]
    simp [hs, hp]
  · intro M hM hs hp
    have hany : ¬(M.potions_against.any (fun p =>
        match findV st.potion_counts p with
        | some c => 0 < c
        | none => false) = true) := by
      rw [any_instock_iff]
      rintro ⟨p, hmem, hstock⟩
      exact hp p hmem hstock
    simp only [handle_encounter, hM]
    by_cases hpe : M.potions_against = []
    · rw [if_pos ⟨by rw [hs]; rfl, by rw [hpe]; rfl⟩]
    · rw [if_neg (fun hand => hpe (List.length_eq_zero.1 hand.2)),
        if_pos (by rw [hs]; rfl), if_neg hany]
  · intro M hM hnd hwin
    have hmain : handle_encounter st w =
        (Inventory.mk st.ingredients (trophyAward st.trophies (wd w 3))
          (useOnePotions st.potion_counts M.potions_against) st.potions st.monsters,
          "Geralt defeats " ++ wd w 3) := by
      simp only [handle_encounter, hM]
      rcases hwin with hsne | hstock
      · have h2 : ¬(M.signs_against.length = 0) := fun h => hsne (List.length_eq_zero.1 h)
        rw [if_neg (fun hand => h2 hand.1), if_neg h2]
      · by_cases hse : M.signs_against = []
        · have hne : M.potions_against ≠ [] := by
            obtain ⟨p, hp2, _⟩ := hstock
            intro h
            rw [h] at hp2
            cases hp2
          have hany : M.potions_against.any (fun p =>
              match findV st.potion_counts p with
              | some c => 0 < c
              | none => false) = true := (any_instock_iff st M.potions_against).2 hstock
          rw [if_neg (fun hand => hne (List.length_eq_zero.1 hand.2)),
            if_pos (by rw [hse]; rfl), if_pos hany]
        · have h2 : ¬(M.signs_against.length = 0) := fun h => hse (List.length_eq_zero.1 h)
          rw [if_neg (fun hand => h2 hand.1), if_neg h2]
    rw [hmain]
    refine ⟨rfl, rfl, rfl, rfl, trophyAward_find_self st.trophies (wd w 3), ?_, ?_⟩
    · intro n hne
      exact trophyAward_find_ne st.trophies (wd w 3) n hne
    · intro n
      exact useOnePotions_find M.potions_against st.potion_counts hks hnd n

/-- C7 witness: a concrete prepared encounter (one effective sign, one
effective potion with stock 2) defeats the monster, consumes one potion
and awards the first trophy, via the theorem. -/
theorem c7_encounter_witness :
    (handle_encounter
      (⟨[], [], [("Swallow", 2)], [], [("Harpy", ⟨["Igni"], ["Swallow"]⟩)]⟩ : Inventory)
      (splitLine "Geralt encounters a Harpy")).2 = "Geralt defeats Harpy" ∧
    findV (handle_encounter
      (⟨[], [], [("Swallow", 2)], [], [("Harpy", ⟨["Igni"], ["Swallow"]⟩)]⟩ : Inventory)
      (splitLine "Geralt encounters a Harpy")).1.trophies "Harpy" = some 1 ∧
    findV (handle_encounter
      (⟨[], [], [("Swallow", 2)], [], [("Harpy", ⟨["Igni"], ["Swallow"]⟩)]⟩ : Inventory)
      (splitLine "Geralt encounters a Harpy")).1.potion_counts "Swallow" = some 1 := by
  have h := c7_encounter
    (⟨[], [], [("Swallow", 2)], [], [("Harpy", ⟨["Igni"], ["Swallow"]⟩)]⟩ : Inventory)
    (splitLine "Geralt encounters a Harpy") (by rw [KeysSorted]; simp)
  obtain ⟨-, -, -, h4⟩ := h
  obtain ⟨ho, -, -, -, ht, -, hp⟩ :=
    h4 ⟨["Igni"], ["Swallow"]⟩ (by decide) (by decide) (Or.inl (by decide))
  refine ⟨by exact ho, by simpa using ht, ?_⟩
  have := hp "Swallow"
  simpa using this

/-! ## Claim C9: bestiary monotonicity -/

/-- Effective signs recorded against a monster (empty when unknown). -/
def signsOf (mons : List (String × Monster)) (m : String) : List String :=
  match findV mons m with
  | some M => M.signs_against
  | none => []

/-- Effective potions recorded against a monster (empty when unknown). -/
def potionsOf (mons : List (String × Monster)) (m : String) : List String :=
  match findV mons m with
  | some M => M.potions_against
  | none => []

theorem bestiary_keep (st st2 : Inventory) (m : String) (he : st2.monsters = st.monsters) :
    (∀ s, s ∈ signsOf st.monsters m → s ∈ signsOf st2.monsters m) ∧
    (∀ p, p ∈ potionsOf st.monsters m → p ∈ potionsOf st2.monsters m) := by
  rw [he]
  exact ⟨fun s hs => hs, fun p hp => hp⟩

theorem monsters_handle_loot (st : Inventory) (w : List String) (r : Inventory × String)
    (h : handle_loot st w = some r) : r.1.monsters = st.monsters := by
  rw [handle_loot, Option.map_eq_some'] at h
  obtain ⟨ing, -, hr⟩ := h
  rw [← hr]

theorem monsters_handle_trade (st : Inventory) (w : List String) (r : Inventory × String)
    (h : handle_trade st w = some r) : r.1.monsters = st.monsters := by
  rw [handle_trade] at h
  rcases hc : tradeCollect w st.trophies (w.length + 1) 2 [] with _ | (_ | ⟨mp, i⟩)
  · rw [hc] at h
    cases h
  · rw [hc] at h
    dsimp only at h
    cases h
    rfl
  · rw [hc] at h
    dsimp only at h
    rcases hl : lootAddLoop w st.ingredients i with _ | ing
    · rw [hl] at h
      cases h
    · rw [hl] at h
      dsimp only at h
      cases h
      rfl

theorem monsters_handle_brew (st : Inventory) (w : List String) :
    (handle_brew st w).1.monsters = st.monsters := by
  rw [handle_brew]
  rcases findV st.potions (String.intercalate " " (w.drop 2)) with _ | P
  · rfl
  · dsimp only
    split <;> rfl

theorem monsters_handle_recipe (st : Inventory) (w : List String) (r : Inventory × String)
    (h : handle_potion_recipe st w = some r) : r.1.monsters = st.monsters := by
  rw [handle_potion_recipe] at h
  rcases hk : firstPotionIdx w with _ | k
  · rw [hk] at h
    cases h
  · rw [hk] at h
    dsimp only at h
    rcases hf : findV st.potions (scannedName w k) with _ | P
    · rw [hf] at h
      dsimp only at h
      rw [Option.map_eq_some'] at h
      obtain ⟨f, -, hr⟩ := h
      rw [← hr]
    · rw [hf] at h
      dsimp only at h
      split at h
      · cases h
        rfl
      · rw [Option.map_eq_some'] at h
        obtain ⟨f, -, hr⟩ := h
        rw [← hr]

theorem monsters_handle_encounter (st : Inventory) (w : List String) :
    (handle_encounter st w).1.monsters = st.monsters := by
  rw [handle_encounter]
  rcases findV st.monsters (wd w 3) with _ | M
  · rfl
  · dsimp only
    split
    · rfl
    · split
      · split <;> rfl
      · rfl

theorem handle_sign_mono (st : Inventory) (w : List String) (m : String) :
    (∀ s, s ∈ signsOf st.monsters m →
        s ∈ signsOf (handle_sign_knowledge st w).1.monsters m) ∧
    (∀ p, p ∈ potionsOf st.monsters m →
        p ∈ potionsOf (handle_sign_knowledge st w).1.monsters m) := by
  rw [handle_sign_knowledge]
  rcases hf : findV st.monsters (wd w 7) with _ | M
  · dsimp only
    by_cases hm : m = wd w 7
    · subst hm
      constructor
      · intro s hs
        rw [signsOf, hf] at hs
        cases hs
      · intro p hp
        rw [potionsOf, hf] at hp
        cases hp
    · constructor
      · intro s hs
        rwa [signsOf, findV_setV_ne _ _ _ _ hm, ← signsOf]
      · intro p hp
        rwa [potionsOf, findV_setV_ne _ _ _ _ hm, ← potionsOf]
  · dsimp only
    by_cases hk : wd w 2 ∈ M.signs_against
    · rw [if_pos hk]
      exact ⟨fun s hs => hs, fun p hp => hp⟩
    · rw [if_neg hk]
      by_cases hm : m = wd w 7
      · subst hm
        constructor
        · intro s hs
          rw [signsOf, hf] at hs
          rw [signsOf, findV_setV_self]
          exact (insertSet_mem _ _ _).2 (Or.inr hs)
        · intro p hp
          rw [potionsOf, hf] at hp
          rw [potionsOf, findV_setV_self]
          exact hp
      · constructor
        · intro s hs
          rwa [signsOf, findV_setV_ne _ _ _ _ hm, ← signsOf]
        · intro p hp
          rwa [potionsOf, findV_setV_ne _ _ _ _ hm, ← potionsOf]

theorem handle_potion_mono (st : Inventory) (w : List String) (r : Inventory × String)
    (h : handle_potion_knowledge st w = some r) (m : String) :
    (∀ s, s ∈ signsOf st.monsters m → s ∈ signsOf r.1.monsters m) ∧
    (∀ p, p ∈ potionsOf st.monsters m → p ∈ potionsOf r.1.monsters m) := by
  rw [handle_potion_knowledge] at h
  rcases hk0 : firstPotionIdx w with _ | k
  · rw [hk0] at h
    cases h
  · rw [hk0] at h
    dsimp only at h
    rcases hf : findV st.monsters (wd w (k + 4)) with _ | M
    · rw [hf] at h
      dsimp only at h
      cases h
      dsimp only
      by_cases hm : m = wd w (k + 4)
      · subst hm
        constructor
        · intro s hs
          rw [signsOf, hf] at hs
          cases hs
        · intro p hp
          rw [potionsOf, hf] at hp
          cases hp
      · constructor
        · intro s hs
          rwa [signsOf, findV_setV_ne _ _ _ _ hm, ← signsOf]
        · intro p hp
          rwa [potionsOf, findV_setV_ne _ _ _ _ hm, ← potionsOf]
    · rw [hf] at h
      dsimp only at h
      by_cases hk : scannedName w k ∈ M.potions_against
      · rw [if_pos hk] at h
        cases h
        exact ⟨fun s hs => hs, fun p hp => hp⟩
      · rw [if_neg hk] at h
        cases h
        dsimp only
        by_cases hm : m = wd w (k + 4)
        · subst hm
          constructor
          · intro s hs
            rw [signsOf, hf] at hs
            rw [signsOf, findV_setV_self]
            exact hs
          · intro p hp
            rw [potionsOf, hf] at hp
            rw [potionsOf, findV_setV_self]
            exact (insertSet_mem _ _ _).2 (Or.inr hp)
        · constructor
          · intro s hs
            rwa [signsOf, findV_setV_ne _ _ _ _ hm, ← signsOf]
          · intro p hp
            rwa [potionsOf, findV_setV_ne _ _ _ _ hm, ← potionsOf]

theorem bestiary_mono_step (st : Inventory) (l : String) (st' : Inventory) (o : Output)
    (h : execute_line st l = some (st', o)) (m : String) :
    (∀ s, s ∈ signsOf st.monsters m → s ∈ signsOf st'.monsters m) ∧
    (∀ p, p ∈ potionsOf st.monsters m → p ∈ potionsOf st'.monsters m) := by
  rw [execute_line] at h
  by_cases h2 : detect_type (splitLine l) = 2
  · rw [if_pos h2] at h
    injection h with h3
    injection h3 with h4 h5
    rw [← h4]
    exact bestiary_keep st st m rfl
  · rw [if_neg h2] at h
    by_cases h1 : detect_type (splitLine l) = 1
    · rw [if_pos h1] at h
      have hst : st' = st := by
        dsimp only at h
        split_ifs at h <;> (injection h with h3; injection h3 with h4 h5; exact h4.symm)
      rw [hst]
      exact bestiary_keep st st m rfl
    · rw [if_neg h1] at h
      by_cases h0 : detect_type (splitLine l) = 0
      · rw [if_pos h0] at h
        rcases hd : detect_sentence_type l (splitLine l) with _ | sv
        · rw [hd] at h
          exact Option.noConfusion h
        · rw [hd] at h
          dsimp only at h
          split_ifs at h
          · rw [Option.map_eq_some'] at h
            obtain ⟨r, hr, hro⟩ := h
            injection hro with h3 h5
            rw [← h3]
            exact bestiary_keep st r.1 m (monsters_handle_loot st (splitLine l) r hr)
          · rw [Option.map_eq_some'] at h
            obtain ⟨r, hr, hro⟩ := h
            injection hro with h3 h5
            rw [← h3]
            exact bestiary_keep st r.1 m (monsters_handle_trade st (splitLine l) r hr)
          · injection h with h3
            injection h3 with h4 h5
            rw [← h4]
            exact bestiary_keep st _ m (monsters_handle_brew st (splitLine l))
          · injection h with h3
            injection h3 with h4 h5
            rw [← h4]
            exact handle_sign_mono st (splitLine l) m
          · rw [Option.map_eq_some'] at h
            obtain ⟨r, hr, hro⟩ := h
            injection hro with h3 h5
            rw [← h3]
            exact handle_potion_mono st (splitLine l) r hr m
          · rw [Option.map_eq_some'] at h
            obtain ⟨r, hr, hro⟩ := h
            injection hro with h3 h5
            rw [← h3]
            exact bestiary_keep st r.1 m (monsters_handle_recipe st (splitLine l) r hr)
          · injection h with h3
            injection h3 with h4 h5
            rw [← h4]
            exact bestiary_keep st _ m (monsters_handle_encounter st (splitLine l))
          · injection h with h3
            injection h3 with h4 h5
            rw [← h4]
            exact bestiary_keep st st m rfl
      · rw [if_neg h0] at h
        injection h with h3
        injection h3 with h4 h5
        rw [← h4]
        exact bestiary_keep st st m rfl

/-- C9: once a sign or potion is recorded as effective against a
monster, no command ever removes it (single-step monotonicity over the
whole interpreter, hence over every sequence of commands); and
re-learning an already-recorded sign or potion leaves the state
unchanged and answers `"Already known effectiveness"`. -/
theorem c9_bestiary_monotonic :
    (∀ st l st' o, execute_line st l = some (st', o) →
      ∀ m s, s ∈ signsOf st.monsters m → s ∈ signsOf st'.monsters m) ∧
    (∀ st l st' o, execute_line st l = some (st', o) →
      ∀ m p, p ∈ potionsOf st.monsters m → p ∈ potionsOf st'.monsters m) ∧
    (∀ st (w : List String) M, findV st.monsters (wd w 7) = some M →
      wd w 2 ∈ M.signs_against →
      handle_sign_knowledge st w = (st, "Already known effectiveness")) ∧
    (∀ st (w : List String) k M, firstPotionIdx w = some k →
      findV st.monsters (wd w (k + 4)) = some M →
      scannedName w k ∈ M.potions_against →
      handle_potion_knowledge st w = some (st, "Already known effectiveness")) := by
  refine ⟨?_, ?_, ?_, ?_⟩
  · intro st l st' o h m s hs
    exact (bestiary_mono_step st l st' o h m).1 s hs
  · intro st l st' o h m p hp
    exact (bestiary_mono_step st l st' o h m).2 p hp
  · intro st w M hM hmem
    rw [handle_sign_knowledge, hM]
    dsimp only
    rw [if_pos hmem]
  · intro st w k M hk hM hmem
    rw [handle_potion_knowledge, hk]
    dsimp only
    rw [hM]
    dsimp only
    rw [if_pos hmem]

/-- C9 witness: re-learning `Igni` against a known `Harpy` answers
"Already known effectiveness" without changing the state, and a
subsequent loot command preserves the recorded sign, via the theorem. -/
theorem c9_bestiary_monotonic_witness :
    handle_sign_knowledge
      (⟨[], [], [], [], [("Harpy", ⟨["Igni"], []⟩)]⟩ : Inventory)
      (splitLine "Geralt learns Igni sign is effective against Harpy") =
      ((⟨[], [], [], [], [("Harpy", ⟨["Igni"], []⟩)]⟩ : Inventory),
        "Already known effectiveness") ∧
    "Igni" ∈ signsOf
      (⟨[("Rebis", 5)], [], [], [], [("Harpy", ⟨["Igni"], []⟩)]⟩ : Inventory).monsters
      "Harpy" := by
  constructor
  · exact c9_bestiary_monotonic.2.2.1
      (⟨[], [], [], [], [("Harpy", ⟨["Igni"], []⟩)]⟩ : Inventory)
      (splitLine "Geralt learns Igni sign is effective against Harpy")
      ⟨["Igni"], []⟩ (by decide) (by decide)
  · exact c9_bestiary_monotonic.1
      (⟨[], [], [], [], [("Harpy", ⟨["Igni"], []⟩)]⟩ : Inventory)
      "Geralt loots 5 Rebis"
      (⟨[("Rebis", 5)], [], [], [], [("Harpy", ⟨["Igni"], []⟩)]⟩ : Inventory)
      (Output.text "Alchemy ingredients obtained") (by decide) "Harpy" "Igni" (by decide)

/-! ## Claim C2: brewing -/

theorem use_ingredient_keysSorted (ing : List (String × Int)) (n : String) (c : Int)
    (hs : KeysSorted ing) : KeysSorted (use_ingredient ing n c) := by
  rw [use_ingredient]
  rcases findV ing n with _ | v
  · exact hs
  · dsimp only
    by_cases h : v - c ≤ 0
    · rw [if_pos h]
      exact eraseV_keysSorted ing n hs
    · rw [if_neg h]
      exact setV_keysSorted ing n (v - c) hs

theorem use_ingredient_find_self (ing : List (String × Int)) (n : String) (c : Int)
    (hs : KeysSorted ing) :
    findV (use_ingredient ing n c) n =
      match findV ing n with
      | none => none
      | some v => if v - c ≤ 0 then none else some (v - c) := by
  rw [use_ingredient]
  rcases hf : findV ing n with _ | v
  · simp [hf]
  · dsimp only
    by_cases h : v - c ≤ 0
    · rw [if_pos h, if_pos h]
      exact findV_eraseV_self ing n hs
    · rw [if_neg h, if_neg h]
      exact findV_setV_self ing n (v - c)

theorem use_ingredient_find_ne (ing : List (String × Int)) (n : String) (c : Int)
    (n' : String) (hne : n' ≠ n) :
    findV (use_ingredient ing n c) n' = findV ing n' := by
  rw [use_ingredient]
  rcases findV ing n with _ | v
  · rfl
  · dsimp only
    by_cases h : v - c ≤ 0
    · rw [if_pos h]
      exact findV_eraseV_ne ing n n' hne
    · rw [if_neg h]
      exact findV_setV_ne ing n n' (v - c) hne

/-- Total quantity a formula requires of one ingredient name (summed
over duplicate entries). -/
def sumFor (l : List (String × Int)) (n : String) : Int :=
  ((l.filter (fun p => p.1 = n)).map (fun p => p.2)).sum

theorem sumFor_cons (p : String × Int) (l : List (String × Int)) (n : String) :
    sumFor (p :: l) n = (if p.1 = n then p.2 else 0) + sumFor l n := by
  by_cases h : p.1 = n
  · simp [sumFor, List.filter_cons, h]
  · simp [sumFor, List.filter_cons, h]

theorem sumFor_nonneg (l : List (String × Int)) (n : String)
    (hq : ∀ p ∈ l, (0 : Int) ≤ p.2) : 0 ≤ sumFor l n := by
  induction l with
  | nil => simp [sumFor]
  | cons p rest ih =>
    rw [sumFor_cons]
    have h1 : (0 : Int) ≤ (if p.1 = n then p.2 else 0) := by
      split
      · exact hq p (by simp)
      · exact le_rfl
    have h2 := ih (fun q hq2 => hq q (by simp [hq2]))
    omega

theorem sumFor_eq_zero_of_not_mem (l : List (String × Int)) (n : String)
    (h : n ∉ l.map Prod.fst) : sumFor l n = 0 := by
  induction l with
  | nil => simp [sumFor]
  | cons p rest ih =>
    simp only [List.map_cons, List.mem_cons, not_or] at h
    rw [sumFor_cons, if_neg (fun he => h.1 he.symm), ih h.2, add_zero]

theorem sumFor_perm (l l' : List (String × Int)) (n : String) (h : List.Perm l l') :
    sumFor l n = sumFor l' n := by
  rw [sumFor, sumFor]
  exact ((h.filter _).map _).sum_eq

theorem foldUse_find (l : List (String × Int)) :
    ∀ ing, KeysSorted ing → (∀ p ∈ l, (0 : Int) ≤ p.2) → ∀ n,
      findV (l.foldl (fun g p => use_ingredient g p.1 p.2) ing) n =
        if n ∈ l.map Prod.fst then
          match findV ing n with
          | none => none
          | some s => if sumFor l n < s then some (s - sumFor l n) else none
        else findV ing n := by
  induction l with
  | nil =>
    intro ing _ _ n
    simp
  | cons p rest ih =>
    intro ing hks hq n
    rw [List.foldl_cons]
    rw [ih (use_ingredient ing p.1 p.2)
      (use_ingredient_keysSorted ing p.1 p.2 hks)
      (fun q hq2 => hq q (by simp [hq2])) n]
    by_cases hn : n = p.1
    · subst hn
      have hself := use_ingredient_find_self ing p.1 p.2 hks
      have hsum := sumFor_cons p rest p.1
      rw [if_pos rfl] at hsum
      have hrest0 : 0 ≤ sumFor rest p.1 :=
        sumFor_nonneg rest p.1 (fun q hq2 => hq q (by simp [hq2]))
      by_cases hmem : p.1 ∈ rest.map Prod.fst
      · rw [if_pos hmem, if_pos (by simp), hself]
        rcases hf : findV ing p.1 with _ | s
        · rfl
        · dsimp only
          by_cases hle : s - p.2 ≤ 0
          · rw [if_pos hle]
            rw [if_neg (by omega)]
          · rw [if_neg hle]
            dsimp only
            by_cases hlt : sumFor rest p.1 < s - p.2
            · rw [if_pos hlt, if_pos (by omega)]
              congr 1
              omega
            · rw [if_neg hlt, if_neg (by omega)]
      · rw [if_neg hmem, if_pos (by simp), hself]
        have hzero : sumFor rest p.1 = 0 := sumFor_eq_zero_of_not_mem rest p.1 hmem
        rcases hf : findV ing p.1 with _ | s
        · rfl
        · dsimp only
          by_cases hle : s - p.2 ≤ 0
          · rw [if_pos hle, if_neg (by omega)]
          · rw [if_neg hle, if_pos (by omega)]
            congr 1
            omega
    · rw [use_ingredient_find_ne ing p.1 p.2 n (hn)]
      have hsum : sumFor (p :: rest) n = sumFor rest n := by
        rw [sumFor_cons, if_neg (fun he => hn he.symm), zero_add]
      by_cases hmem : n ∈ rest.map Prod.fst
      · rw [if_pos hmem, if_pos (by simp [hmem]), hsum]
      · rw [if_neg hmem, if_neg (by simp [hn, hmem])]

theorem brewCheck_iff (st : Inventory) (P : Potion) :
    ((P.get_ingredients).all (fun p =>
        match findV st.ingredients p.1 with
        | none => false
        | some v => p.2 ≤ v) = true) ↔
      ∀ p ∈ P.ingredients, ∃ s, findV st.ingredients p.1 = some s ∧ p.2 ≤ s := by
  rw [List.all_eq_true]
  constructor
  · intro hall p hp
    have hp2 : p ∈ P.get_ingredients := (sortIngs_perm P.ingredients).mem_iff.1 hp
    have := hall p hp2
    rcases hf : findV st.ingredients p.1 with _ | v
    · rw [hf] at this
      cases this
    · rw [hf] at this
      exact ⟨v, rfl, by simpa using this⟩
  · intro hall p hp
    obtain ⟨s, hf, hle⟩ := hall p ((sortIngs_perm P.ingredients).mem_iff.2 hp)
    simp [hf, hle]

/-- C2: a brew whose potion has a stored formula succeeds iff every
(entry-wise) required ingredient is present with at least the required
quantity; on failure nothing changes and the not-enough message is
printed; on success every required quantity is deducted (for each name,
the stock drops by the formula's total for that name, the entry being
removed when nothing positive remains), the potion's brewed count is
incremented, and the response names the potion. -/
theorem c2_brew (st : Inventory) (w : List String) (P : Potion)
    (hks : KeysSorted st.ingredients)
    (hfind : findV st.potions (String.intercalate " " (w.drop 2)) = some P)
    (hq : ∀ p ∈ P.ingredients, (0 : Int) < p.2) :
    (¬(∀ p ∈ P.ingredients, ∃ s, findV st.ingredients p.1 = some s ∧ p.2 ≤ s) →
        handle_brew st w = (st, "Not enough ingredients")) ∧
    ((∀ p ∈ P.ingredients, ∃ s, findV st.ingredients p.1 = some s ∧ p.2 ≤ s) →
        (handle_brew st w).2 =
          "Alchemy item created: " ++ String.intercalate " " (w.drop 2) ∧
        (handle_brew st w).1.trophies = st.trophies ∧
        (handle_brew st w).1.potions = st.potions ∧
        (handle_brew st w).1.monsters = st.monsters ∧
        findV (handle_brew st w).1.potion_counts (String.intercalate " " (w.drop 2)) =
          some ((findV st.potion_counts (String.intercalate " " (w.drop 2))).getD 0 + 1) ∧
        (∀ n, n ≠ String.intercalate " " (w.drop 2) →
          findV (handle_brew st w).1.potion_counts n = findV st.potion_counts n) ∧
        (∀ n, n ∈ P.ingredients.map Prod.fst →
          findV (handle_brew st w).1.ingredients n =
            (if sumFor P.ingredients n < (findV st.ingredients n).getD 0 then
              some ((findV st.ingredients n).getD 0 - sumFor P.ingredients n)
            else none)) ∧
        (∀ n, n ∉ P.ingredients.map Prod.fst →
          findV (handle_brew st w).1.ingredients n = findV st.ingredients n)) := by
  have hperm := sortIngs_perm P.ingredients
  have hq0 : ∀ p ∈ P.get_ingredients, (0 : Int) ≤ p.2 :=
    fun p hp => le_of_lt (hq p (hperm.mem_iff.2 hp))
  have hmemmap : ∀ n, n ∈ (P.get_ingredients).map Prod.fst ↔ n ∈ P.ingredients.map Prod.fst :=
    fun n => (hperm.map Prod.fst).mem_iff.symm
  have hsum : ∀ n, sumFor (P.get_ingredients) n = sumFor P.ingredients n :=
    fun n => (sumFor_perm _ _ n hperm).symm
  constructor
  · intro hfail
    rw [handle_brew, hfind]
    dsimp only
    rw [if_neg (fun hall => hfail ((brewCheck_iff st P).1 hall))]
  · intro hsucc
    have hall := (brewCheck_iff st P).2 hsucc
    rw [handle_brew, hfind]
    dsimp only
    rw [if_pos hall]
    refine ⟨rfl, rfl, rfl, rfl, findV_setV_self _ _ _, ?_, ?_, ?_⟩
    · intro n hne
      exact findV_setV_ne _ _ _ _ hne
    · intro n hmem
      rw [foldUse_find (P.get_ingredients) st.ingredients hks hq0 n,
        if_pos ((hmemmap n).2 hmem), hsum]
      obtain ⟨p, hp, hpn⟩ := List.mem_map.1 hmem
      obtain ⟨s, hf, hle⟩ := hsucc p hp
      rw [hpn] at hf
      rw [hf]
      rfl
    · intro n hmem
      rw [foldUse_find (P.get_ingredients) st.ingredients hks hq0 n,
        if_neg (fun hx => hmem ((hmemmap n).1 hx))]

/-- C2 witness: brewing `Swallow` (formula 3 Vitriol, 2 Rebis) from
stock 5 Rebis, 3 Vitriol deducts both (Vitriol reaching zero is
removed), stores one potion and reports creation, via the theorem. -/
theorem c2_brew_witness :
    (handle_brew
      (⟨[("Rebis", 5), ("Vitriol", 3)], [], [], [("Swallow", ⟨[("Vitriol", 3), ("Rebis", 2)]⟩)], []⟩ : Inventory)
      (splitLine "Geralt brews Swallow")).2 = "Alchemy item created: Swallow" ∧
    findV (handle_brew
      (⟨[("Rebis", 5), ("Vitriol", 3)], [], [], [("Swallow", ⟨[("Vitriol", 3), ("Rebis", 2)]⟩)], []⟩ : Inventory)
      (splitLine "Geralt brews Swallow")).1.ingredients "Rebis" = some 3 ∧
    findV (handle_brew
      (⟨[("Rebis", 5), ("Vitriol", 3)], [], [], [("Swallow", ⟨[("Vitriol", 3), ("Rebis", 2)]⟩)], []⟩ : Inventory)
      (splitLine "Geralt brews Swallow")).1.ingredients "Vitriol" = none ∧
    findV (handle_brew
      (⟨[("Rebis", 5), ("Vitriol", 3)], [], [], [("Swallow", ⟨[("Vitriol", 3), ("Rebis", 2)]⟩)], []⟩ : Inventory)
      (splitLine "Geralt brews Swallow")).1.potion_counts "Swallow" = some 1 := by
  have h := (c2_brew
    (⟨[("Rebis", 5), ("Vitriol", 3)], [], [], [("Swallow", ⟨[("Vitriol", 3), ("Rebis", 2)]⟩)], []⟩ : Inventory)
    (splitLine "Geralt brews Swallow") ⟨[("Vitriol", 3), ("Rebis", 2)]⟩
    (by rw [KeysSorted]; simp; decide)
    (by decide) (by decide)).2 (by decide)
  obtain ⟨ho, -, -, -, hpc, -, hmem, -⟩ := h
  refine ⟨ho, ?_, ?_, by simpa using hpc⟩
  · have := hmem "Rebis" (by decide)
    simpa using this
  · have := hmem "Vitriol" (by decide)
    simpa using this

/-! ## Claim C10: stored formulas are never empty -/

theorem tmod3_eq_two_ge (L i : Nat) (h : Int.tmod ((L : Int) - (i : Int)) 3 = 2) :
    i + 2 ≤ L := by
  rcases hd : (L : Int) - (i : Int) with m | m
  · rw [hd] at h
    have he : Int.tmod (Int.ofNat m) 3 = ((m % 3 : Nat) : Int) := rfl
    rw [he] at h
    have hm : m % 3 = 2 := by exact_mod_cast h
    have hd2 : (L : Int) - (i : Int) = (m : Int) := by rw [hd]; rfl
    omega
  · rw [hd] at h
    have he : Int.tmod (Int.negSucc m) 3 = -(((m + 1) % 3 : Nat) : Int) := rfl
    rw [he] at h
    omega

theorem recipeF_collectF (w : List String) :
    ∀ fuel1, ∀ fuel2 i, w.length ≤ i + fuel1 → w.length ≤ i + fuel2 →
      recipeCheckLoopF w fuel1 i = some true →
      ∃ f, collectIngsF w fuel2 i = some f ∧ (∀ p ∈ f, (0 : Int) < p.2) ∧
        (i + 2 ≤ w.length → f ≠ []) := by
  intro fuel1
  induction fuel1 with
  | zero =>
    intro fuel2 i hb1 hb2 h
    have hguard : ¬(i + 2 ≤ w.length) := by omega
    refine ⟨[], ?_, by simp, fun hc => absurd hc hguard⟩
    cases fuel2 with
    | zero => rfl
    | succ f2 => rw [collectIngsF, if_neg hguard]
  | succ n ih =>
    intro fuel2 i hb1 hb2 h
    rw [recipeCheckLoopF] at h
    by_cases hg : i + 1 ≤ w.length
    · rw [if_pos hg] at h
      by_cases hint : is_integer (wd w i) = false
      · rw [if_pos hint] at h
        simp at h
      · rw [if_neg hint] at h
        rcases hs : stoi? (wd w i) with _ | cnt
        · rw [hs] at h
          cases h
        · rw [hs] at h
          dsimp only at h
          by_cases hc0 : cnt ≤ 0
          · rw [if_pos hc0] at h
            simp at h
          · rw [if_neg hc0] at h
            by_cases hal : is_alphabetical (wd w (i + 1)) = false
            · rw [if_pos hal] at h
              simp at h
            · rw [if_neg hal] at h
              by_cases hcm : i + 3 ≤ w.length ∧ wd w (i + 2) ≠ ","
              · rw [if_pos hcm] at h
                simp at h
              · rw [if_neg hcm] at h
                by_cases hg2 : i + 2 ≤ w.length
                · obtain ⟨f2', rfl⟩ : ∃ f2', fuel2 = f2' + 1 := by
                    rcases fuel2 with _ | f2'
                    · omega
                    · exact ⟨f2', rfl⟩
                  obtain ⟨f, hcol, hpos, -⟩ := ih f2' (i + 3) (by omega) (by omega) h
                  refine ⟨(wd w (i + 1), cnt) :: f, ?_, ?_, fun _ => by simp⟩
                  · rw [collectIngsF, if_pos hg2, hs]
                    dsimp only
                    rw [hcol]
                    rfl
                  · intro p hp
                    rcases List.mem_cons.1 hp with hp | hp
                    · rw [hp]
                      dsimp only
                      omega
                    · exact hpos p hp
                · refine ⟨[], ?_, by simp, fun hc => absurd hc hg2⟩
                  cases fuel2 with
                  | zero => rfl
                  | succ f2 => rw [collectIngsF, if_neg hg2]
    · rw [if_neg hg] at h
      have hg2 : ¬(i + 2 ≤ w.length) := by omega
      refine ⟨[], ?_, by simp, fun hc => absurd hc hg2⟩
      cases fuel2 with
      | zero => rfl
      | succ f2 => rw [collectIngsF, if_neg hg2]

theorem recipe_valid_collect (w : List String) (i : Nat)
    (h : is_valid_potion_recipe w i = some true) :
    ∃ f, collectIngs w i = some f ∧ f ≠ [] ∧ ∀ p ∈ f, (0 : Int) < p.2 := by
  rw [is_valid_potion_recipe] at h
  split_ifs at h with hmod
  · simp at h
  · push_neg at hmod
    have hge : i + 2 ≤ w.length := tmod3_eq_two_ge w.length i hmod
    rw [recipeCheckLoop] at h
    obtain ⟨f, hcol, hpos, hne⟩ :=
      recipeF_collectF w w.length w.length i (by omega) (by omega) h
    exact ⟨f, by rw [collectIngs]; exact hcol, hne hge, hpos⟩

theorem detect_recipe_valid (line : String) (w : List String)
    (h : detect_sentence_type line w = some 5) :
    ∃ k, firstPotionIdx w = some k ∧ is_valid_potion_recipe w (k + 3) = some true := by
  rw [detect_sentence_type] at h
  by_cases c1 : wd w 0 ≠ "Geralt"
  · rw [if_pos c1] at h
    exact absurd (Option.some.inj h) (by decide)
  · rw [if_neg c1] at h
    by_cases c2 : w.length ≤ 2
    · rw [if_pos c2] at h
      exact absurd (Option.some.inj h) (by decide)
    · rw [if_neg c2] at h
      by_cases c3 : wd w 2 = ","
      · rw [if_pos c3] at h
        exact absurd (Option.some.inj h) (by decide)
      · rw [if_neg c3] at h
        by_cases c4 : wd w (w.length - 1) = ","
        · rw [if_pos c4] at h
          exact absurd (Option.some.inj h) (by decide)
        · rw [if_neg c4] at h
          by_cases c5 : wd w 1 = "loots"
          · rw [if_pos c5, Option.map_eq_some'] at h
            obtain ⟨b, -, hb5⟩ := h
            cases b <;> exact absurd hb5 (by decide)
          · rw [if_neg c5] at h
            by_cases c6 : wd w 1 = "trades"
            · rw [if_pos c6, Option.map_eq_some'] at h
              obtain ⟨b, -, hb5⟩ := h
              cases b <;> exact absurd hb5 (by decide)
            · rw [if_neg c6] at h
              by_cases c7 : wd w 1 = "brews"
              · rw [if_pos c7] at h
                have h5 := Option.some.inj h
                split at h5 <;> exact absurd h5 (by decide)
              · rw [if_neg c7] at h
                by_cases c8 : wd w 1 = "learns"
                · rw [if_pos c8] at h
                  by_cases c8a : w.length < 8
                  · rw [if_pos c8a] at h
                    exact absurd (Option.some.inj h) (by decide)
                  · rw [if_neg c8a] at h
                    by_cases c8b : wd w 3 = "sign"
                    · rw [if_pos c8b] at h
                      have h5 := Option.some.inj h
                      split at h5 <;> exact absurd h5 (by decide)
                    · rw [if_neg c8b] at h
                      rcases hk : firstPotionIdx w with _ | k
                      · rw [hk] at h
                        exact absurd (Option.some.inj h) (by decide)
                      · rw [hk] at h
                        dsimp only at h
                        by_cases d1 : is_valid_potion_name line w 2 (k - 1) = false
                        · rw [if_pos d1] at h
                          exact absurd (Option.some.inj h) (by decide)
                        · rw [if_neg d1] at h
                          by_cases d2 : wd w k ≠ "potion"
                          · rw [if_pos d2] at h
                            exact absurd (Option.some.inj h) (by decide)
                          · rw [if_neg d2] at h
                            by_cases d3 : wd w (k + 1) = "is"
                            · rw [if_pos d3] at h
                              have h5 := Option.some.inj h
                              split at h5 <;> exact absurd h5 (by decide)
                            · rw [if_neg d3] at h
                              by_cases d4 : wd w (k + 1) = "consists" ∧ wd w (k + 2) = "of"
                              · rw [if_pos d4, Option.map_eq_some'] at h
                                obtain ⟨b, hb, hb5⟩ := h
                                cases b
                                · exact absurd hb5 (by decide)
                                · exact ⟨k, rfl, hb⟩
                              · rw [if_neg d4] at h
                                exact absurd (Option.some.inj h) (by decide)
                · rw [if_neg c8] at h
                  by_cases c9 : wd w 1 = "encounters" ∧ wd w 2 = "a"
                  · rw [if_pos c9] at h
                    have h5 := Option.some.inj h
                    split at h5 <;> exact absurd h5 (by decide)
                  · rw [if_neg c9] at h
                    exact absurd (Option.some.inj h) (by decide)

theorem potions_handle_loot (st : Inventory) (w : List String) (r : Inventory × String)
    (h : handle_loot st w = some r) : r.1.potions = st.potions := by
  rw [handle_loot, Option.map_eq_some'] at h
  obtain ⟨ing, -, hr⟩ := h
  rw [← hr]

theorem potions_handle_trade (st : Inventory) (w : List String) (r : Inventory × String)
    (h : handle_trade st w = some r) : r.1.potions = st.potions := by
  rw [handle_trade] at h
  rcases hc : tradeCollect w st.trophies (w.length + 1) 2 [] with _ | (_ | ⟨mp, i⟩)
  · rw [hc] at h
    cases h
  · rw [hc] at h
    dsimp only at h
    cases h
    rfl
  · rw [hc] at h
    dsimp only at h
    rcases hl : lootAddLoop w st.ingredients i with _ | ing
    · rw [hl] at h
      cases h
    · rw [hl] at h
      dsimp only at h
      cases h
      rfl

theorem potions_handle_brew (st : Inventory) (w : List String) :
    (handle_brew st w).1.potions = st.potions := by
  rw [handle_brew]
  rcases findV st.potions (String.intercalate " " (w.drop 2)) with _ | P
  · rfl
  · dsimp only
    split <;> rfl

theorem potions_handle_sign (st : Inventory) (w : List String) :
    (handle_sign_knowledge st w).1.potions = st.potions := by
  rw [handle_sign_knowledge]
  rcases findV st.monsters (wd w 7) with _ | M
  · rfl
  · dsimp only
    split <;> rfl

theorem potions_handle_pk (st : Inventory) (w : List String) (r : Inventory × String)
    (h : handle_potion_knowledge st w = some r) : r.1.potions = st.potions := by
  rw [handle_potion_knowledge] at h
  rcases hk : firstPotionIdx w with _ | k
  · rw [hk] at h
    cases h
  · rw [hk] at h
    dsimp only at h
    rcases hf : findV st.monsters (wd w (k + 4)) with _ | M
    · rw [hf] at h
      dsimp only at h
      cases h
      rfl
    · rw [hf] at h
      dsimp only at h
      split at h
      · cases h
        rfl
      · cases h
        rfl

theorem potions_handle_encounter (st : Inventory) (w : List String) :
    (handle_encounter st w).1.potions = st.potions := by
  rw [handle_encounter]
  rcases findV st.monsters (wd w 3) with _ | M
  · rfl
  · dsimp only
    split
    · rfl
    · split
      · split <;> rfl
      · rfl

/-- Invariant of claim C10: every stored formula is non-empty. -/
def FormulaInv (st : Inventory) : Prop :=
  ∀ n P, findV st.potions n = some P → P.ingredients ≠ []

theorem formulaInv_of_potions_eq (st st2 : Inventory) (he : st2.potions = st.potions)
    (hinv : FormulaInv st) : FormulaInv st2 := by
  intro n P hf
  rw [he] at hf
  exact hinv n P hf

theorem formulaInv_recipe (st : Inventory) (line : String) (w : List String)
    (r : Inventory × String)
    (hd : detect_sentence_type line w = some 5)
    (h : handle_potion_recipe st w = some r)
    (hinv : FormulaInv st) : FormulaInv r.1 := by
  obtain ⟨k, hk, hvalid⟩ := detect_recipe_valid line w hd
  obtain ⟨f, hcol, hfne, -⟩ := recipe_valid_collect w (k + 3) hvalid
  rw [handle_potion_recipe, hk] at h
  dsimp only at h
  rcases hf : findV st.potions (scannedName w k) with _ | P
  · rw [hf] at h
    dsimp only at h
    rw [hcol] at h
    cases h
    intro n P' hfind
    by_cases hn : n = scannedName w k
    · subst hn
      rw [findV_setV_self] at hfind
      cases hfind
      exact hfne
    · rw [findV_setV_ne _ _ _ _ hn] at hfind
      exact hinv n P' hfind
  · rw [hf] at h
    dsimp only at h
    split at h
    · cases h
      exact hinv
    · rw [hcol] at h
      cases h
      intro n P' hfind
      by_cases hn : n = scannedName w k
      · subst hn
        rw [findV_setV_self] at hfind
        cases hfind
        exact hfne
      · rw [findV_setV_ne _ _ _ _ hn] at hfind
        exact hinv n P' hfind

theorem formulaInv_step (st : Inventory) (l : String) (st' : Inventory) (o : Output)
    (h : execute_line st l = some (st', o)) (hinv : FormulaInv st) : FormulaInv st' := by
  rw [execute_line] at h
  by_cases h2 : detect_type (splitLine l) = 2
  · rw [if_pos h2] at h
    injection h with h3
    injection h3 with h4 h5
    exact formulaInv_of_potions_eq st st' (by rw [← h4]) hinv
  · rw [if_neg h2] at h
    by_cases h1 : detect_type (splitLine l) = 1
    · rw [if_pos h1] at h
      have hst : st' = st := by
        dsimp only at h
        split_ifs at h <;> (injection h with h3; injection h3 with h4 h5; exact h4.symm)
      rw [hst]
      exact hinv
    · rw [if_neg h1] at h
      by_cases h0 : detect_type (splitLine l) = 0
      · rw [if_pos h0] at h
        rcases hd : detect_sentence_type l (splitLine l) with _ | sv
        · rw [hd] at h
          exact Option.noConfusion h
        · rw [hd] at h
          dsimp only at h
          split_ifs at h with hs0 hs1 hs2 hs3 hs4 hs5 hs6
          · rw [Option.map_eq_some'] at h
            obtain ⟨r, hr, hro⟩ := h
            injection hro with h3 h5
            exact formulaInv_of_potions_eq st st'
              (by rw [← h3]; exact potions_handle_loot st (splitLine l) r hr) hinv
          · rw [Option.map_eq_some'] at h
            obtain ⟨r, hr, hro⟩ := h
            injection hro with h3 h5
            exact formulaInv_of_potions_eq st st'
              (by rw [← h3]; exact potions_handle_trade st (splitLine l) r hr) hinv
          · injection h with h3
            injection h3 with h4 h5
            exact formulaInv_of_potions_eq st st'
              (by rw [← h4]; exact potions_handle_brew st (splitLine l)) hinv
          · injection h with h3
            injection h3 with h4 h5
            exact formulaInv_of_potions_eq st st'
              (by rw [← h4]; exact potions_handle_sign st (splitLine l)) hinv
          · rw [Option.map_eq_some'] at h
            obtain ⟨r, hr, hro⟩ := h
            injection hro with h3 h5
            exact formulaInv_of_potions_eq st st'
              (by rw [← h3]; exact potions_handle_pk st (splitLine l) r hr) hinv
          · rw [Option.map_eq_some'] at h
            obtain ⟨r, hr, hro⟩ := h
            injection hro with h3 h5
            have : FormulaInv r.1 := by
              refine formulaInv_recipe st l (splitLine l) r ?_ hr hinv
              rw [hd, hs5]
            rw [← h3]
            exact this
          · injection h with h3
            injection h3 with h4 h5
            exact formulaInv_of_potions_eq st st'
              (by rw [← h4]; exact potions_handle_encounter st (splitLine l)) hinv
          · injection h with h3
            injection h3 with h4 h5
            rw [← h4]
            exact hinv
      · rw [if_neg h0] at h
        injection h with h3
        injection h3 with h4 h5
        rw [← h4]
        exact hinv

theorem runLines_formulaInv (lines : List String) :
    ∀ st, FormulaInv st → FormulaInv (runLines st lines) := by
  induction lines with
  | nil => intro st hinv; exact hinv
  | cons l ls ih =>
    intro st hinv
    rw [runLines]
    by_cases he : l = "Exit"
    · rw [if_pos he]
      exact hinv
    · rw [if_neg he]
      rcases hx : execute_line st l with _ | ⟨st', o⟩
    -- none: crashed; state frozen
      · exact hinv
      · rcases o with s | _
        · exact ih st' (formulaInv_step st l st' (Output.text s) hx hinv)
        · exact formulaInv_step st l st' Output.exitCmd hx hinv

/-- C10: in every state reachable from the initial inventory, every
potion present in the formula book has a non-empty ingredient list (the
recipe grammar requires at least one group before a formula is stored),
so the empty-formula branches of the brew handler and the formula
printer are unreachable. -/
theorem c10_formula_nonempty (lines : List String) (n : String) (P : Potion)
    (h : findV (runLines initInventory lines).potions n = some P) :
    P.ingredients ≠ [] := by
  refine runLines_formulaInv lines initInventory ?_ n P h
  intro n' P' hfind
  cases hfind

/-- C10 witness: after learning a one-group recipe, the stored Swallow
formula is non-empty, via the theorem. -/
theorem c10_formula_nonempty_witness :
    (⟨[("Vitriol", 3)]⟩ : Potion).ingredients ≠ [] :=
  c10_formula_nonempty ["Geralt learns Swallow potion consists of 3 Vitriol"]
    "Swallow" ⟨[("Vitriol", 3)]⟩ (by decide)

/-! ## C5: the Loot grammar -/

theorem splitCharsF_ne_empty (fuel : Nat) :
    ∀ cs : List Char, ∀ s ∈ splitCharsF fuel cs, s ≠ "" := by
  induction fuel with
  | zero =>
    intro cs s hs
    cases cs <;> simp [splitCharsF] at hs
  | succ fuel ih =>
    intro cs s hs
    cases cs with
    | nil => simp [splitCharsF] at hs
    | cons c cs =>
      rw [splitCharsF] at hs
      by_cases h1 : c = ',' || c = '?'
      · rw [if_pos h1] at hs
        rcases List.mem_cons.mp hs with h2 | h2
        · subst h2
          intro he
          exact List.cons_ne_nil c [] (congrArg String.data he)
        · exact ih cs s h2
      · rw [if_neg h1] at hs
        by_cases h2 : isSpaceChar c
        · rw [if_pos h2] at hs
          exact ih cs s hs
        · rw [if_neg h2] at hs
          rcases List.mem_cons.mp hs with h3 | h3
          · subst h3
            intro he
            exact List.cons_ne_nil c _ (congrArg String.data he)
          · exact ih _ s h3

/-- `Utils::split_line` never produces an empty token. -/
theorem splitLine_ne_empty (line : String) : ∀ s ∈ splitLine line, s ≠ "" :=
  splitCharsF_ne_empty line.toList.length line.toList

/-- Spec side of C5: a positive-integer count token (nonempty, all
digits, value positive). -/
def isPosIntTok (s : String) : Bool :=
  !s.toList.isEmpty && is_integer s && digitsVal s != 0

/-- Spec side of C5, following the claim's words: the tokens after
`"loots"` form repeated groups of (positive-integer count, alphabetic
ingredient name, comma), the comma omitted only on the final group,
with at least one group. -/
def specLootTail : List String → Bool
  | [] => false
  | [_] => false
  | [c, n] => isPosIntTok c && is_alphabetical n
  | c :: n :: x :: rest =>
    isPosIntTok c && is_alphabetical n && x == "," && specLootTail rest

/-- Spec side of C5: the whole Loot sentence shape.  (The group shape
forces the total token count to be `≡ 1 (mod 3)`; the conjunct mirrors
the claim's arity condition.) -/
def specLoot (w : List String) : Bool :=
  wd w 0 == "Geralt" && wd w 1 == "loots" && w.length % 3 == 1 &&
    specLootTail (w.drop 2)

theorem specLootTail_head_false (c : String) (rest : List String)
    (h : isPosIntTok c = false) : specLootTail (c :: rest) = false := by
  rcases rest with _ | ⟨n, _ | ⟨x, r⟩⟩ <;> simp [specLootTail, h]

/-- In a valid loot tail the final token is alphabetic. -/
theorem specLootTail_last_alpha :
    ∀ l : List String, specLootTail l = true →
      ∀ j : Nat, j + 1 = l.length → is_alphabetical (wd l j) = true := by
  intro l
  induction l using specLootTail.induct with
  | case1 => intro h; simp [specLootTail] at h
  | case2 a => intro h; simp [specLootTail] at h
  | case3 c n =>
    intro h j hj
    simp [specLootTail] at h
    have hj2 : j = 1 := by simpa using hj
    subst hj2
    exact h.2
  | case4 c n x rest ih =>
    intro h j hj
    simp only [specLootTail, Bool.and_eq_true] at h
    obtain ⟨⟨⟨-, -⟩, -⟩, htail⟩ := h
    have hlen : rest.length ≠ 0 := by
      intro h0
      rw [List.length_eq_zero] at h0
      subst h0
      simp [specLootTail] at htail
    obtain ⟨j', rfl⟩ : ∃ j', j = j' + 3 := by
      refine ⟨j - 3, ?_⟩
      simp at hj
      omega
    rw [wd_cons_succ, wd_cons_succ, wd_cons_succ]
    refine ih htail j' ?_
    simp at hj
    omega

/-- The group loop of `is_valid_loot` agrees with the spec-side tail
grammar, for token lists with nonempty in-range count tokens and the
arity established by the caller's precheck. -/
theorem lootF_spec (w : List String) (hne : ∀ s ∈ w, s ≠ "")
    (hrange : ∀ s ∈ w, is_integer s = true → digitsVal s ≤ 2147483647) :
    ∀ fuel i, w.length ≤ i + fuel → (w.length - i) % 3 = 2 →
      lootCheckLoopF w fuel i = some (specLootTail (w.drop i)) := by
  intro fuel
  induction fuel with
  | zero =>
    intro i hb hmod
    omega
  | succ fuel ih =>
    intro i hb hmod
    have hi2 : i + 2 ≤ w.length := by omega
    have hi : i < w.length := by omega
    have hi1 : i + 1 < w.length := by omega
    have hdrop : w.drop i = wd w i :: wd w (i + 1) :: w.drop (i + 2) := by
      rw [drop_wd_cons w i hi, drop_wd_cons w (i + 1) hi1]
    rw [lootCheckLoopF, if_pos hi2, hdrop]
    by_cases hint : is_integer (wd w i) = false
    · rw [if_pos hint]
      have hp : isPosIntTok (wd w i) = false := by
        simp [isPosIntTok, hint]
      rw [specLootTail_head_false _ _ hp]
    · rw [if_neg hint]
      rw [Bool.not_eq_false] at hint
      have hnem : wd w i ≠ "" := hne _ (mem_of_wd w i hi)
      have hnel : (wd w i).data ≠ [] := by
        intro h0
        apply hnem
        have := congrArg String.mk h0
        simpa using this
      have hs : stoi? (wd w i) = some ((digitsVal (wd w i) : Int)) := by
        rw [stoi?, if_pos ⟨hnel, hint, hrange _ (mem_of_wd w i hi) hint⟩]
      rw [hs]
      dsimp only
      by_cases hc0 : (digitsVal (wd w i) : Int) ≤ 0
      · rw [if_pos hc0]
        have hz : digitsVal (wd w i) = 0 := by omega
        have hp : isPosIntTok (wd w i) = false := by
          simp [isPosIntTok, hz]
        rw [specLootTail_head_false _ _ hp]
      · rw [if_neg hc0]
        have hposTok : isPosIntTok (wd w i) = true := by
          have hz : digitsVal (wd w i) ≠ 0 := by omega
          simp [isPosIntTok, hint, hz, hnel]
        by_cases hal : is_alphabetical (wd w (i + 1)) = false
        · rw [if_pos hal]
          rcases hrest : w.drop (i + 2) with _ | ⟨x, r⟩ <;>
            simp [specLootTail, hal]
        · rw [if_neg hal]
          rw [Bool.not_eq_false] at hal
          by_cases hfin : i + 2 = w.length
          · have hrest : w.drop (i + 2) = [] := by
              rw [hfin, List.drop_length]
            have hcm : ¬(i + 4 ≤ w.length ∧ wd w (i + 2) ≠ ",") := by
              intro hcm
              omega
            rw [if_neg hcm, hrest]
            have hg2 : ¬(i + 3 + 2 ≤ w.length) := by omega
            have hend : lootCheckLoopF w fuel (i + 3) = some true := by
              cases fuel with
              | zero => rfl
              | succ f => rw [lootCheckLoopF, if_neg hg2]
            rw [hend]
            simp [specLootTail, hposTok, hal]
          · have hi4 : i + 4 ≤ w.length := by omega
            have hi2lt : i + 2 < w.length := by omega
            have hdrop2 : w.drop (i + 2) = wd w (i + 2) :: w.drop (i + 3) := by
              rw [drop_wd_cons w (i + 2) hi2lt]
            by_cases hcomma : wd w (i + 2) = ","
            · have hcm : ¬(i + 4 ≤ w.length ∧ wd w (i + 2) ≠ ",") := by
                intro hcm
                exact hcm.2 hcomma
              rw [if_neg hcm, hdrop2]
              rw [ih (i + 3) (by omega) (by omega)]
              simp [specLootTail, hposTok, hal, hcomma]
            · have hcm : i + 4 ≤ w.length ∧ wd w (i + 2) ≠ "," := ⟨hi4, hcomma⟩
              rw [if_pos hcm, hdrop2]
              simp [specLootTail, hposTok, hal, hcomma]

/-- `Utils::is_valid_loot` agrees with the spec-side grammar on
nonempty in-range tokens (it returns `none`, a crash, otherwise). -/
theorem is_valid_loot_spec (w : List String) (hne : ∀ s ∈ w, s ≠ "")
    (hrange : ∀ s ∈ w, is_integer s = true → digitsVal s ≤ 2147483647) :
    is_valid_loot w = some ((w.length % 3 == 1) && specLootTail (w.drop 2)) := by
  rw [is_valid_loot]
  by_cases hpre : w.length % 3 ≠ 1 ∨ w.length < 4
  · rw [if_pos hpre]
    rcases hpre with hm | hl
    · simp [hm]
    · by_cases hm : w.length % 3 = 1
      · have hlen : w.length = 1 := by omega
        have hdrop : w.drop 2 = [] := by
          apply List.drop_eq_nil_of_le
          omega
        simp [hdrop, specLootTail]
      · simp [hm]
  · rw [if_neg hpre]
    push_neg at hpre
    obtain ⟨hm, hl⟩ := hpre
    rw [lootCheckLoop, lootF_spec w hne hrange w.length 2 (by omega) (by omega)]
    simp [hm]

/-- C5 counterexample: the line `"Geralt loots 99999999999999999999 Rebis"`
has exactly the shape the claim calls valid (one group: a positive
integer count and an alphabetic name), yet the classifier does not
return any classification at all: `std::stoi` on the 20-digit count
throws `std::out_of_range` inside `is_valid_loot` and the program
crashes (modelled as `none`). -/
theorem c5_counterexample :
    specLoot (splitLine "Geralt loots 99999999999999999999 Rebis") = true ∧
    detect_sentence_type "Geralt loots 99999999999999999999 Rebis"
      (splitLine "Geralt loots 99999999999999999999 Rebis") = none := by
  exact ⟨by decide, by decide⟩

/-- C5 (amended): on a line whose all-digit tokens are within `int`
range (so `std::stoi` cannot throw) and whose first two tokens are
`"Geralt"` and `"loots"`, the classifier returns the Loot sentence type
`0` exactly when the tokens from index 2 onward form repeated groups of
(positive-integer count, alphabetic name, comma), comma omitted only on
the final group, with at least one group and total token count
`≡ 1 (mod 3)`; every other shape is classified `-1` (Invalid). -/
theorem c5_loot_grammar (line : String)
    (hrange : ∀ s ∈ splitLine line, is_integer s = true → digitsVal s ≤ 2147483647)
    (hw0 : wd (splitLine line) 0 = "Geralt")
    (hw1 : wd (splitLine line) 1 = "loots") :
    detect_sentence_type line (splitLine line) =
      some (if specLoot (splitLine line) = true then 0 else -1) := by
  have hne : ∀ s ∈ splitLine line, s ≠ "" := splitLine_ne_empty line
  rw [detect_sentence_type, if_neg (not_not_intro hw0)]
  by_cases hlen : (splitLine line).length ≤ 2
  · rw [if_pos hlen]
    have hdrop : (splitLine line).drop 2 = [] := List.drop_eq_nil_of_le hlen
    simp [specLoot, hdrop, specLootTail]
  · rw [if_neg hlen]
    by_cases hc2 : wd (splitLine line) 2 = ","
    · rw [if_pos hc2]
      have h2lt : 2 < (splitLine line).length := by omega
      have hdrop : (splitLine line).drop 2 =
          wd (splitLine line) 2 :: (splitLine line).drop 3 :=
        drop_wd_cons _ 2 h2lt
      have hfalse : specLootTail ((splitLine line).drop 2) = false := by
        rw [hdrop, hc2]
        exact specLootTail_head_false _ _ (by decide)
      simp [specLoot, hfalse]
    · rw [if_neg hc2]
      by_cases hlast : wd (splitLine line) ((splitLine line).length - 1) = ","
      · rw [if_pos hlast]
        have hfalse : specLootTail ((splitLine line).drop 2) = false := by
          by_contra hcon
          rw [Bool.not_eq_false] at hcon
          have hlen2 : ((splitLine line).length - 3) + 1 =
              ((splitLine line).drop 2).length := by
            rw [List.length_drop]
            omega
          have halpha := specLootTail_last_alpha ((splitLine line).drop 2) hcon
            ((splitLine line).length - 3) hlen2
          have hwd : wd ((splitLine line).drop 2) ((splitLine line).length - 3) =
              wd (splitLine line) ((splitLine line).length - 1) := by
            rw [wd, wd, List.getD_eq_getElem?_getD, List.getD_eq_getElem?_getD,
              List.getElem?_drop]
            have hidx : 2 + ((splitLine line).length - 3) =
                (splitLine line).length - 1 := by omega
            rw [hidx]
          rw [hwd, hlast] at halpha
          exact absurd halpha (by decide)
        simp [specLoot, hfalse]
      · rw [if_neg hlast, if_pos hw1,
          is_valid_loot_spec (splitLine line) hne hrange]
        simp [specLoot, hw0, hw1]

/-- C5 witness: the amended theorem at an in-range valid loot line. -/
theorem c5_loot_grammar_witness :
    detect_sentence_type "Geralt loots 3 Rebis" (splitLine "Geralt loots 3 Rebis") =
      some (if specLoot (splitLine "Geralt loots 3 Rebis") = true then 0 else -1) :=
  c5_loot_grammar "Geralt loots 3 Rebis" (by decide) (by decide) (by decide)

/-! ## C4: the positive-ledger invariant -/

theorem findV_some_mem {α : Type} (m : List (String × α)) (k : String) (v : α)
    (h : findV m k = some v) : (k, v) ∈ m := by
  induction m with
  | nil => cases h
  | cons p rest ih =>
    obtain ⟨k0, v0⟩ := p
    rw [findV] at h
    by_cases he : k0 = k
    · rw [if_pos he] at h
      injection h with h2
      subst he
      subst h2
      exact List.mem_cons_self _ _
    · rw [if_neg he] at h
      exact List.mem_cons_of_mem _ (ih h)

theorem pos_setV (m : List (String × Int)) (k : String) (v : Int)
    (hv : 0 < v) (hm : ∀ p ∈ m, 0 < p.2) : ∀ p ∈ setV m k v, 0 < p.2 := by
  intro p hp
  rcases mem_setV m k v p hp with h | h
  · rw [h]
    exact hv
  · exact hm p h

theorem pos_eraseV (m : List (String × Int)) (k : String)
    (hm : ∀ p ∈ m, 0 < p.2) : ∀ p ∈ eraseV m k, 0 < p.2 :=
  fun p hp => hm p ((eraseV_sublist m k).subset hp)

theorem add_ingredient_pos (ing : List (String × Int)) (n : String) (c : Int)
    (hc : 0 < c) (h : ∀ p ∈ ing, 0 < p.2) :
    ∀ p ∈ add_ingredient ing n c, 0 < p.2 := by
  rcases hf : findV ing n with _ | v
  · rw [add_ingredient, hf]
    exact pos_setV ing n c hc h
  · rw [add_ingredient, hf]
    have hv : 0 < v := h (n, v) (findV_some_mem ing n v hf)
    exact pos_setV ing n (v + c) (by omega) h

theorem use_ingredient_pos (ing : List (String × Int)) (n : String) (c : Int)
    (h : ∀ p ∈ ing, 0 < p.2) : ∀ p ∈ use_ingredient ing n c, 0 < p.2 := by
  rcases hf : findV ing n with _ | v
  · rw [use_ingredient, hf]
    exact h
  · rw [use_ingredient, hf]
    dsimp only
    by_cases h0 : v - c ≤ 0
    · rw [if_pos h0]
      exact pos_eraseV ing n h
    · rw [if_neg h0]
      exact pos_setV ing n (v - c) (by omega) h

theorem decrease_trophy_pos (tr : List (String × Int)) (n : String) (c : Int)
    (h : ∀ p ∈ tr, 0 < p.2) : ∀ p ∈ decrease_trophy tr n c, 0 < p.2 := by
  rcases hf : findV tr n with _ | v
  · rw [decrease_trophy, hf]
    exact h
  · rw [decrease_trophy, hf]
    dsimp only
    by_cases h0 : v - c ≤ 0
    · rw [if_pos h0]
      exact pos_eraseV tr n h
    · rw [if_neg h0]
      exact pos_setV tr n (v - c) (by omega) h

theorem foldl_use_ingredient_pos (l : List (String × Int)) :
    ∀ ing, (∀ p ∈ ing, 0 < p.2) →
      ∀ p ∈ l.foldl (fun g q => use_ingredient g q.1 q.2) ing, 0 < p.2 := by
  induction l with
  | nil => intro ing h; exact h
  | cons q l ih =>
    intro ing h
    exact ih _ (use_ingredient_pos ing q.1 q.2 h)

theorem foldl_decrease_trophy_pos (l : List (String × Int)) :
    ∀ tr, (∀ p ∈ tr, 0 < p.2) →
      ∀ p ∈ l.foldl (fun t q => decrease_trophy t q.1 q.2) tr, 0 < p.2 := by
  induction l with
  | nil => intro tr h; exact h
  | cons q l ih =>
    intro tr h
    exact ih _ (decrease_trophy_pos tr q.1 q.2 h)

theorem trophyAward_pos (tr : List (String × Int)) (m : String)
    (h : ∀ p ∈ tr, 0 < p.2) : ∀ p ∈ trophyAward tr m, 0 < p.2 := by
  rcases hf : findV tr m with _ | t
  · rw [trophyAward, hf]
    exact pos_setV tr m 1 (by omega) h
  · rw [trophyAward, hf]
    have ht : 0 < t := h (m, t) (findV_some_mem tr m t hf)
    exact pos_setV tr m (t + 1) (by omega) h

theorem usePotionStep_pos (m : List (String × Int)) (p : String)
    (h : ∀ q ∈ m, 0 < q.2) : ∀ q ∈ usePotionStep m p, 0 < q.2 := by
  rcases hf : findV m p with _ | c
  · rw [usePotionStep, hf]
    exact h
  · rw [usePotionStep, hf]
    dsimp only
    by_cases h1 : 0 < c
    · rw [if_pos h1]
      by_cases h2 : c - 1 = 0
      · rw [if_pos h2]
        exact pos_eraseV m p h
      · rw [if_neg h2]
        exact pos_setV m p (c - 1) (by omega) h
    · rw [if_neg h1]
      exact h

theorem useOnePotions_pos (pots : List String) :
    ∀ pc, (∀ q ∈ pc, 0 < q.2) → ∀ q ∈ useOnePotions pc pots, 0 < q.2 := by
  induction pots with
  | nil => intro pc h; exact h
  | cons p pots ih =>
    intro pc h
    rw [useOnePotions_eq_foldl, List.foldl_cons]
    have := ih (usePotionStep pc p) (usePotionStep_pos pc p h)
    rw [useOnePotions_eq_foldl] at this
    exact this

/-- The loot validator's group loop guarantees the adding loop of
`handle_loot`/`handle_trade` only ever adds positive counts. -/
theorem lootCheck_add_pos (w : List String) :
    ∀ fuel1, ∀ fuel2 i ing ing', w.length ≤ i + fuel1 →
      lootCheckLoopF w fuel1 i = some true →
      lootAddLoopF w fuel2 ing i = some ing' →
      (∀ p ∈ ing, 0 < p.2) → ∀ p ∈ ing', 0 < p.2 := by
  intro fuel1
  induction fuel1 with
  | zero =>
    intro fuel2 i ing ing' hb hck hadd hpos
    have hg : ¬(i + 2 ≤ w.length) := by omega
    cases fuel2 with
    | zero =>
      rw [lootAddLoopF] at hadd
      injection hadd with h2
      subst h2
      exact hpos
    | succ f2 =>
      rw [lootAddLoopF, if_neg hg] at hadd
      injection hadd with h2
      subst h2
      exact hpos
  | succ f1 ih =>
    intro fuel2 i ing ing' hb hck hadd hpos
    rw [lootCheckLoopF] at hck
    by_cases hg : i + 2 ≤ w.length
    · rw [if_pos hg] at hck
      by_cases hint : is_integer (wd w i) = false
      · rw [if_pos hint] at hck
        simp at hck
      · rw [if_neg hint] at hck
        rcases hs : stoi? (wd w i) with _ | cnt
        · rw [hs] at hck
          cases hck
        · rw [hs] at hck
          dsimp only at hck
          by_cases hc0 : cnt ≤ 0
          · rw [if_pos hc0] at hck
            simp at hck
          · rw [if_neg hc0] at hck
            by_cases hal : is_alphabetical (wd w (i + 1)) = false
            · rw [if_pos hal] at hck
              simp at hck
            · rw [if_neg hal] at hck
              by_cases hcm : i + 4 ≤ w.length ∧ wd w (i + 2) ≠ ","
              · rw [if_pos hcm] at hck
                simp at hck
              · rw [if_neg hcm] at hck
                cases fuel2 with
                | zero =>
                  rw [lootAddLoopF] at hadd
                  injection hadd with h2
                  subst h2
                  exact hpos
                | succ f2 =>
                  rw [lootAddLoopF, if_pos hg, hs] at hadd
                  dsimp only at hadd
                  exact ih f2 (i + 3) _ ing' (by omega) hck hadd
                    (add_ingredient_pos ing (wd w (i + 1)) cnt (by omega) hpos)
    · rw [if_neg hg] at hck
      cases fuel2 with
      | zero =>
        rw [lootAddLoopF] at hadd
        injection hadd with h2
        subst h2
        exact hpos
      | succ f2 =>
        rw [lootAddLoopF, if_neg hg] at hadd
        injection hadd with h2
        subst h2
        exact hpos

/-- The trade validator's first loop and `handle_trade`'s collecting
loop break at the same resumption index. -/
theorem tradeSec1_collect_idx (w : List String) (tr : List (String × Int)) :
    ∀ fuel1, ∀ fuel2 i acc j m i',
      tradeCheckSec1 w fuel1 i = some (some j) →
      tradeCollect w tr fuel2 i acc = some (some (m, i')) →
      i' = j := by
  intro fuel1
  induction fuel1 with
  | zero =>
    intro fuel2 i acc j m i' hck hco
    cases hck
  | succ f1 ih =>
    intro fuel2 i acc j m i' hck hco
    rw [tradeCheckSec1] at hck
    cases fuel2 with
    | zero => cases hco
    | succ f2 =>
      rw [tradeCollect] at hco
      by_cases hint : is_integer (wd w i) = false
      · rw [if_pos hint] at hck
        simp at hck
      · rw [if_neg hint] at hck
        rcases hs : stoi? (wd w i) with _ | cnt
        · rw [hs] at hck
          cases hck
        · rw [hs] at hck hco
          dsimp only at hck hco
          by_cases hc0 : cnt ≤ 0
          · rw [if_pos hc0] at hck
            simp at hck
          · rw [if_neg hc0] at hck
            by_cases hal : is_alphabetical (wd w (i + 1)) = false
            · rw [if_pos hal] at hck
              simp at hck
            · rw [if_neg hal] at hck
              rcases hfv : findV tr (wd w (i + 1)) with _ | v
              · rw [hfv] at hco
                dsimp only at hco
                injection hco with h2
                cases h2
              · rw [hfv] at hco
                dsimp only at hco
                by_cases hv : v < cnt
                · rw [if_pos hv] at hco
                  injection hco with h2
                  cases h2
                · rw [if_neg hv] at hco
                  by_cases hfor : wd w (i + 3) = "for"
                  · rw [if_pos hfor] at hck hco
                    by_cases htr : wd w (i + 2) ≠ "trophy"
                    · rw [if_pos htr] at hck
                      simp at hck
                    · rw [if_neg htr] at hck
                      injection hck with hck2
                      injection hck2 with hck3
                      injection hco with hco2
                      injection hco2 with hco3
                      injection hco3 with hco4 hco5
                      omega
                  · rw [if_neg hfor] at hck hco
                    by_cases hcm : wd w (i + 2) ≠ ","
                    · rw [if_pos hcm] at hck
                      simp at hck
                    · rw [if_neg hcm] at hck
                      exact ih f2 (i + 3) _ j m i' hck hco

/-- Classification as a Loot sentence means the loot validator accepted. -/
theorem detect_loot_valid (line : String) (w : List String)
    (h : detect_sentence_type line w = some 0) : is_valid_loot w = some true := by
  rw [detect_sentence_type] at h
  by_cases c1 : wd w 0 ≠ "Geralt"
  · rw [if_pos c1] at h
    exact absurd (Option.some.inj h) (by decide)
  · rw [if_neg c1] at h
    by_cases c2 : w.length ≤ 2
    · rw [if_pos c2] at h
      exact absurd (Option.some.inj h) (by decide)
    · rw [if_neg c2] at h
      by_cases c3 : wd w 2 = ","
      · rw [if_pos c3] at h
        exact absurd (Option.some.inj h) (by decide)
      · rw [if_neg c3] at h
        by_cases c4 : wd w (w.length - 1) = ","
        · rw [if_pos c4] at h
          exact absurd (Option.some.inj h) (by decide)
        · rw [if_neg c4] at h
          by_cases c5 : wd w 1 = "loots"
          · rw [if_pos c5, Option.map_eq_some'] at h
            obtain ⟨b, hb, hb5⟩ := h
            cases b
            · exact absurd hb5 (by decide)
            · exact hb
          · rw [if_neg c5] at h
            by_cases c6 : wd w 1 = "trades"
            · rw [if_pos c6, Option.map_eq_some'] at h
              obtain ⟨b, -, hb5⟩ := h
              cases b <;> exact absurd hb5 (by decide)
            · rw [if_neg c6] at h
              by_cases c7 : wd w 1 = "brews"
              · rw [if_pos c7] at h
                have h5 := Option.some.inj h
                split at h5 <;> exact absurd h5 (by decide)
              · rw [if_neg c7] at h
                by_cases c8 : wd w 1 = "learns"
                · rw [if_pos c8] at h
                  by_cases c8a : w.length < 8
                  · rw [if_pos c8a] at h
                    exact absurd (Option.some.inj h) (by decide)
                  · rw [if_neg c8a] at h
                    by_cases c8b : wd w 3 = "sign"
                    · rw [if_pos c8b] at h
                      have h5 := Option.some.inj h
                      split at h5 <;> exact absurd h5 (by decide)
                    · rw [if_neg c8b] at h
                      rcases hk : firstPotionIdx w with _ | k
                      · rw [hk] at h
                        exact absurd (Option.some.inj h) (by decide)
                      · rw [hk] at h
                        dsimp only at h
                        by_cases d1 : is_valid_potion_name line w 2 (k - 1) = false
                        · rw [if_pos d1] at h
                          exact absurd (Option.some.inj h) (by decide)
                        · rw [if_neg d1] at h
                          by_cases d2 : wd w k ≠ "potion"
                          · rw [if_pos d2] at h
                            exact absurd (Option.some.inj h) (by decide)
                          · rw [if_neg d2] at h
                            by_cases d3 : wd w (k + 1) = "is"
                            · rw [if_pos d3] at h
                              have h5 := Option.some.inj h
                              split at h5 <;> exact absurd h5 (by decide)
                            · rw [if_neg d3] at h
                              by_cases d4 : wd w (k + 1) = "consists" ∧ wd w (k + 2) = "of"
                              · rw [if_pos d4, Option.map_eq_some'] at h
                                obtain ⟨b, -, hb5⟩ := h
                                cases b <;> exact absurd hb5 (by decide)
                              · rw [if_neg d4] at h
                                exact absurd (Option.some.inj h) (by decide)
                · rw [if_neg c8] at h
                  by_cases c9 : wd w 1 = "encounters" ∧ wd w 2 = "a"
                  · rw [if_pos c9] at h
                    have h5 := Option.some.inj h
                    split at h5 <;> exact absurd h5 (by decide)
                  · rw [if_neg c9] at h
                    exact absurd (Option.some.inj h) (by decide)

/-- Classification as a Trade sentence means the trade validator accepted. -/
theorem detect_trade_valid (line : String) (w : List String)
    (h : detect_sentence_type line w = some 1) : is_valid_trade w = some true := by
  rw [detect_sentence_type] at h
  by_cases c1 : wd w 0 ≠ "Geralt"
  · rw [if_pos c1] at h
    exact absurd (Option.some.inj h) (by decide)
  · rw [if_neg c1] at h
    by_cases c2 : w.length ≤ 2
    · rw [if_pos c2] at h
      exact absurd (Option.some.inj h) (by decide)
    · rw [if_neg c2] at h
      by_cases c3 : wd w 2 = ","
      · rw [if_pos c3] at h
        exact absurd (Option.some.inj h) (by decide)
      · rw [if_neg c3] at h
        by_cases c4 : wd w (w.length - 1) = ","
        · rw [if_pos c4] at h
          exact absurd (Option.some.inj h) (by decide)
        · rw [if_neg c4] at h
          by_cases c5 : wd w 1 = "loots"
          · rw [if_pos c5, Option.map_eq_some'] at h
            obtain ⟨b, -, hb5⟩ := h
            cases b <;> exact absurd hb5 (by decide)
          · rw [if_neg c5] at h
            by_cases c6 : wd w 1 = "trades"
            · rw [if_pos c6, Option.map_eq_some'] at h
              obtain ⟨b, hb, hb5⟩ := h
              cases b
              · exact absurd hb5 (by decide)
              · exact hb
            · rw [if_neg c6] at h
              by_cases c7 : wd w 1 = "brews"
              · rw [if_pos c7] at h
                have h5 := Option.some.inj h
                split at h5 <;> exact absurd h5 (by decide)
              · rw [if_neg c7] at h
                by_cases c8 : wd w 1 = "learns"
                · rw [if_pos c8] at h
                  by_cases c8a : w.length < 8
                  · rw [if_pos c8a] at h
                    exact absurd (Option.some.inj h) (by decide)
                  · rw [if_neg c8a] at h
                    by_cases c8b : wd w 3 = "sign"
                    · rw [if_pos c8b] at h
                      have h5 := Option.some.inj h
                      split at h5 <;> exact absurd h5 (by decide)
                    · rw [if_neg c8b] at h
                      rcases hk : firstPotionIdx w with _ | k
                      · rw [hk] at h
                        exact absurd (Option.some.inj h) (by decide)
                      · rw [hk] at h
                        dsimp only at h
                        by_cases d1 : is_valid_potion_name line w 2 (k - 1) = false
                        · rw [if_pos d1] at h
                          exact absurd (Option.some.inj h) (by decide)
                        · rw [if_neg d1] at h
                          by_cases d2 : wd w k ≠ "potion"
                          · rw [if_pos d2] at h
                            exact absurd (Option.some.inj h) (by decide)
                          · rw [if_neg d2] at h
                            by_cases d3 : wd w (k + 1) = "is"
                            · rw [if_pos d3] at h
                              have h5 := Option.some.inj h
                              split at h5 <;> exact absurd h5 (by decide)
                            · rw [if_neg d3] at h
                              by_cases d4 : wd w (k + 1) = "consists" ∧ wd w (k + 2) = "of"
                              · rw [if_pos d4, Option.map_eq_some'] at h
                                obtain ⟨b, -, hb5⟩ := h
                                cases b <;> exact absurd hb5 (by decide)
                              · rw [if_neg d4] at h
                                exact absurd (Option.some.inj h) (by decide)
                · rw [if_neg c8] at h
                  by_cases c9 : wd w 1 = "encounters" ∧ wd w 2 = "a"
                  · rw [if_pos c9] at h
                    have h5 := Option.some.inj h
                    split at h5 <;> exact absurd h5 (by decide)
                  · rw [if_neg c9] at h
                    exact absurd (Option.some.inj h) (by decide)

/-- Invariant of claim C4: every stored ledger count is positive. -/
def PosLedgers (st : Inventory) : Prop :=
  (∀ p ∈ st.ingredients, 0 < p.2) ∧ (∀ p ∈ st.trophies, 0 < p.2) ∧
    (∀ p ∈ st.potion_counts, 0 < p.2)

theorem handle_loot_posLedgers (st : Inventory) (w : List String) (r : Inventory × String)
    (hv : is_valid_loot w = some true) (h : handle_loot st w = some r)
    (hp : PosLedgers st) : PosLedgers r.1 := by
  rw [is_valid_loot] at hv
  by_cases hpre : w.length % 3 ≠ 1 ∨ w.length < 4
  · rw [if_pos hpre] at hv
    simp at hv
  · rw [if_neg hpre] at hv
    rw [handle_loot, Option.map_eq_some'] at h
    obtain ⟨ing, hing, hr⟩ := h
    rw [← hr]
    refine ⟨?_, hp.2.1, hp.2.2⟩
    rw [lootCheckLoop] at hv
    rw [lootAddLoop] at hing
    exact lootCheck_add_pos w w.length w.length 2 st.ingredients ing (by omega) hv hing hp.1

theorem handle_trade_posLedgers (st : Inventory) (w : List String) (r : Inventory × String)
    (hv : is_valid_trade w = some true) (h : handle_trade st w = some r)
    (hp : PosLedgers st) : PosLedgers r.1 := by
  rw [handle_trade] at h
  rw [is_valid_trade] at hv
  rcases hsec : tradeCheckSec1 w (w.length + 1) 2 with _ | (_ | j)
  · rw [hsec] at hv
    cases hv
  · rw [hsec] at hv
    simp at hv
  · rw [hsec] at hv
    dsimp only at hv
    by_cases hmod : (w.length - j) % 3 ≠ 2
    · rw [if_pos hmod] at hv
      simp at hv
    · rw [if_neg hmod] at hv
      rcases hc : tradeCollect w st.trophies (w.length + 1) 2 [] with _ | (_ | ⟨m, i⟩)
      · rw [hc] at h
        cases h
      · rw [hc] at h
        dsimp only at h
        injection h with h2
        rw [← h2]
        exact hp
      · rw [hc] at h
        dsimp only at h
        rcases hl : lootAddLoop w st.ingredients i with _ | ing
        · rw [hl] at h
          cases h
        · rw [hl] at h
          dsimp only at h
          injection h with h2
          have hij : i = j :=
            tradeSec1_collect_idx w st.trophies (w.length + 1) (w.length + 1) 2 [] j m i hsec hc
          rw [← h2]
          refine ⟨?_, foldl_decrease_trophy_pos m st.trophies hp.2.1, hp.2.2⟩
          rw [lootCheckLoop] at hv
          rw [lootAddLoop] at hl
          subst hij
          exact lootCheck_add_pos w w.length w.length i st.ingredients ing (by omega) hv hl hp.1

theorem handle_brew_posLedgers (st : Inventory) (w : List String)
    (hp : PosLedgers st) : PosLedgers (handle_brew st w).1 := by
  rw [handle_brew]
  rcases hf : findV st.potions (String.intercalate " " (w.drop 2)) with _ | P
  · exact hp
  · dsimp only
    split
    · refine ⟨foldl_use_ingredient_pos _ _ hp.1, hp.2.1, ?_⟩
      apply pos_setV _ _ _ ?_ hp.2.2
      rcases hpc : findV st.potion_counts (String.intercalate " " (w.drop 2)) with _ | c
      · simp
      · have hc0 : 0 < c := hp.2.2 _ (findV_some_mem _ _ _ hpc)
        simp only [Option.getD_some]
        omega
    · exact hp

theorem ledgers_handle_sign (st : Inventory) (w : List String) :
    (handle_sign_knowledge st w).1.ingredients = st.ingredients ∧
    (handle_sign_knowledge st w).1.trophies = st.trophies ∧
    (handle_sign_knowledge st w).1.potion_counts = st.potion_counts := by
  rw [handle_sign_knowledge]
  rcases findV st.monsters (wd w 7) with _ | M
  · exact ⟨rfl, rfl, rfl⟩
  · dsimp only
    split <;> exact ⟨rfl, rfl, rfl⟩

theorem ledgers_handle_pk (st : Inventory) (w : List String) (r : Inventory × String)
    (h : handle_potion_knowledge st w = some r) :
    r.1.ingredients = st.ingredients ∧ r.1.trophies = st.trophies ∧
    r.1.potion_counts = st.potion_counts := by
  rw [handle_potion_knowledge] at h
  rcases hk : firstPotionIdx w with _ | k
  · rw [hk] at h
    cases h
  · rw [hk] at h
    dsimp only at h
    rcases hf : findV st.monsters (wd w (k + 4)) with _ | M
    · rw [hf] at h
      dsimp only at h
      cases h
      exact ⟨rfl, rfl, rfl⟩
    · rw [hf] at h
      dsimp only at h
      split at h
      · cases h
        exact ⟨rfl, rfl, rfl⟩
      · cases h
        exact ⟨rfl, rfl, rfl⟩

theorem ledgers_handle_recipe (st : Inventory) (w : List String) (r : Inventory × String)
    (h : handle_potion_recipe st w = some r) :
    r.1.ingredients = st.ingredients ∧ r.1.trophies = st.trophies ∧
    r.1.potion_counts = st.potion_counts := by
  rw [handle_potion_recipe] at h
  rcases hk : firstPotionIdx w with _ | k
  · rw [hk] at h
    cases h
  · rw [hk] at h
    dsimp only at h
    rcases hf : findV st.potions (scannedName w k) with _ | P
    · rw [hf] at h
      dsimp only at h
      rw [Option.map_eq_some'] at h
      obtain ⟨f, -, hr⟩ := h
      rw [← hr]
      exact ⟨rfl, rfl, rfl⟩
    · rw [hf] at h
      dsimp only at h
      split at h
      · cases h
        exact ⟨rfl, rfl, rfl⟩
      · rw [Option.map_eq_some'] at h
        obtain ⟨f, -, hr⟩ := h
        rw [← hr]
        exact ⟨rfl, rfl, rfl⟩

theorem handle_encounter_posLedgers (st : Inventory) (w : List String)
    (hp : PosLedgers st) : PosLedgers (handle_encounter st w).1 := by
  rw [handle_encounter]
  rcases findV st.monsters (wd w 3) with _ | M
  · exact hp
  · dsimp only
    split
    · exact hp
    · split
      · split
        · exact ⟨hp.1, trophyAward_pos _ _ hp.2.1, useOnePotions_pos _ _ hp.2.2⟩
        · exact hp
      · exact ⟨hp.1, trophyAward_pos _ _ hp.2.1, useOnePotions_pos _ _ hp.2.2⟩

theorem posLedgers_of_ledgers_eq (st st2 : Inventory)
    (he : st2.ingredients = st.ingredients ∧ st2.trophies = st.trophies ∧
      st2.potion_counts = st.potion_counts)
    (hp : PosLedgers st) : PosLedgers st2 := by
  refine ⟨?_, ?_, ?_⟩
  · rw [he.1]
    exact hp.1
  · rw [he.2.1]
    exact hp.2.1
  · rw [he.2.2]
    exact hp.2.2

theorem posLedgers_step (st : Inventory) (l : String) (st' : Inventory) (o : Output)
    (h : execute_line st l = some (st', o)) (hp : PosLedgers st) : PosLedgers st' := by
  rw [execute_line] at h
  by_cases h2 : detect_type (splitLine l) = 2
  · rw [if_pos h2] at h
    injection h with h3
    injection h3 with h4 h5
    rw [← h4]
    exact hp
  · rw [if_neg h2] at h
    by_cases h1 : detect_type (splitLine l) = 1
    · rw [if_pos h1] at h
      have hst : st' = st := by
        dsimp only at h
        split_ifs at h <;> (injection h with h3; injection h3 with h4 h5; exact h4.symm)
      rw [hst]
      exact hp
    · rw [if_neg h1] at h
      by_cases h0 : detect_type (splitLine l) = 0
      · rw [if_pos h0] at h
        rcases hd : detect_sentence_type l (splitLine l) with _ | sv
        · rw [hd] at h
          exact Option.noConfusion h
        · rw [hd] at h
          dsimp only at h
          split_ifs at h with hs0 hs1 hs2 hs3 hs4 hs5 hs6
          · rw [Option.map_eq_some'] at h
            obtain ⟨r, hr, hro⟩ := h
            injection hro with h3 h5
            rw [← h3]
            refine handle_loot_posLedgers st (splitLine l) r ?_ hr hp
            refine detect_loot_valid l (splitLine l) ?_
            rw [hd, hs0]
          · rw [Option.map_eq_some'] at h
            obtain ⟨r, hr, hro⟩ := h
            injection hro with h3 h5
            rw [← h3]
            refine handle_trade_posLedgers st (splitLine l) r ?_ hr hp
            refine detect_trade_valid l (splitLine l) ?_
            rw [hd, hs1]
          · injection h with h3
            injection h3 with h4 h5
            rw [← h4]
            exact handle_brew_posLedgers st (splitLine l) hp
          · injection h with h3
            injection h3 with h4 h5
            rw [← h4]
            exact posLedgers_of_ledgers_eq st _ (ledgers_handle_sign st (splitLine l)) hp
          · rw [Option.map_eq_some'] at h
            obtain ⟨r, hr, hro⟩ := h
            injection hro with h3 h5
            rw [← h3]
            exact posLedgers_of_ledgers_eq st _ (ledgers_handle_pk st (splitLine l) r hr) hp
          · rw [Option.map_eq_some'] at h
            obtain ⟨r, hr, hro⟩ := h
            injection hro with h3 h5
            rw [← h3]
            exact posLedgers_of_ledgers_eq st _ (ledgers_handle_recipe st (splitLine l) r hr) hp
          · injection h with h3
            injection h3 with h4 h5
            rw [← h4]
            exact handle_encounter_posLedgers st (splitLine l) hp
          · injection h with h3
            injection h3 with h4 h5
            rw [← h4]
            exact hp
      · rw [if_neg h0] at h
        injection h with h3
        injection h3 with h4 h5
        rw [← h4]
        exact hp

theorem runLines_posLedgers (lines : List String) :
    ∀ st, PosLedgers st → PosLedgers (runLines st lines) := by
  induction lines with
  | nil => intro st hp; exact hp
  | cons l ls ih =>
    intro st hp
    rw [runLines]
    by_cases he : l = "Exit"
    · rw [if_pos he]
      exact hp
    · rw [if_neg he]
      rcases hx : execute_line st l with _ | ⟨st', o⟩
      · exact hp
      · rcases o with s | _
        · exact ih st' (posLedgers_step st l st' (Output.text s) hx hp)
        · exact posLedgers_step st l st' Output.exitCmd hx hp

/-- C4: in every state reachable from the initial inventory by any
sequence of input lines, every entry of the ingredient ledger, the
trophy ledger and the potion stock has a strictly positive count:
no handler ever stores a zero or negative count (entries reaching zero
are removed). -/
theorem c4_positive_ledgers (lines : List String) :
    (∀ p ∈ (runLines initInventory lines).ingredients, 0 < p.2) ∧
    (∀ p ∈ (runLines initInventory lines).trophies, 0 < p.2) ∧
    (∀ p ∈ (runLines initInventory lines).potion_counts, 0 < p.2) :=
  runLines_posLedgers lines initInventory
    ⟨fun p hp => absurd hp (List.not_mem_nil p),
     fun p hp => absurd hp (List.not_mem_nil p),
     fun p hp => absurd hp (List.not_mem_nil p)⟩

/-! ## C1: trades -/

/-- The trophy groups a Trade sentence lists, in listing order and with
duplicates kept, together with the index just past `"for"`.  This walks
the tokens exactly as the first loop of `handle_trade` does, but
collects a list instead of a map, so that "every listed trophy" can be
stated. -/
def tradeGroupsF (w : List String) : Nat → Nat → Option (List (String × Int) × Nat)
  | 0, _ => none
  | fuel + 1, i =>
    match stoi? (wd w i) with
    | none => none
    | some cnt =>
      if wd w (i + 3) = "for" then some ([(wd w (i + 1), cnt)], i + 4)
      else (tradeGroupsF w fuel (i + 3)).map (fun r => ((wd w (i + 1), cnt) :: r.1, r.2))

/-- Sufficiency of one listed trophy group against a trophy ledger. -/
def suffB (tr : List (String × Int)) (g : String × Int) : Bool :=
  match findV tr g.1 with
  | none => false
  | some v => g.2 ≤ v

/-- The map `handle_trade` builds from the listed groups (`std::map`
assignment in listing order: later listings overwrite earlier ones). -/
def applyGroups (acc : List (String × Int)) (gs : List (String × Int)) :
    List (String × Int) :=
  gs.foldl (fun a g => setV a g.1 g.2) acc

/-- The count of the LAST listing of a name among the groups. -/
def lastListed : List (String × Int) → String → Option Int
  | [], _ => none
  | g :: gs, n =>
    match lastListed gs n with
    | some c => some c
    | none => if g.1 = n then some g.2 else none

theorem findV_applyGroups (gs : List (String × Int)) :
    ∀ acc n, findV (applyGroups acc gs) n =
      match lastListed gs n with
      | some c => some c
      | none => findV acc n := by
  induction gs with
  | nil => intro acc n; rfl
  | cons g gs ih =>
    intro acc n
    rw [applyGroups, List.foldl_cons]
    have h1 : gs.foldl (fun a g => setV a g.1 g.2) (setV acc g.1 g.2) =
        applyGroups (setV acc g.1 g.2) gs := rfl
    rw [h1, ih]
    rcases hll : lastListed gs n with _ | c
    · rw [lastListed, hll]
      dsimp only
      by_cases he : g.1 = n
      · rw [if_pos he, ← he, findV_setV_self]
      · rw [if_neg he, findV_setV_ne acc g.1 n g.2 (fun h2 => he h2.symm)]
    · rw [lastListed, hll]

theorem applyGroups_keysSorted (gs : List (String × Int)) :
    ∀ acc, KeysSorted acc → KeysSorted (applyGroups acc gs) := by
  induction gs with
  | nil => intro acc h; exact h
  | cons g gs ih =>
    intro acc h
    rw [applyGroups, List.foldl_cons]
    exact ih (setV acc g.1 g.2) (setV_keysSorted acc g.1 g.2 h)

theorem applyGroups_pos (gs : List (String × Int)) :
    ∀ acc, (∀ p ∈ acc, (0 : Int) < p.2) → (∀ g ∈ gs, (0 : Int) < g.2) →
      ∀ p ∈ applyGroups acc gs, (0 : Int) < p.2 := by
  induction gs with
  | nil => intro acc ha _; exact ha
  | cons g gs ih =>
    intro acc ha hg
    rw [applyGroups, List.foldl_cons]
    exact ih (setV acc g.1 g.2) (pos_setV acc g.1 g.2 (hg g (by simp)) ha)
      (fun q hq => hg q (by simp [hq]))

theorem add_ingredient_find_self (ing : List (String × Int)) (n : String) (c : Int) :
    findV (add_ingredient ing n c) n = some ((findV ing n).getD 0 + c) := by
  rcases hf : findV ing n with _ | v
  · rw [add_ingredient, hf, findV_setV_self]
    simp
  · rw [add_ingredient, hf, findV_setV_self]
    simp

theorem add_ingredient_find_ne (ing : List (String × Int)) (n : String) (c : Int)
    (n' : String) (hne : n' ≠ n) :
    findV (add_ingredient ing n c) n' = findV ing n' := by
  rcases hf : findV ing n with _ | v
  · rw [add_ingredient, hf, findV_setV_ne ing n n' c hne]
  · rw [add_ingredient, hf, findV_setV_ne ing n n' (v + c) hne]

theorem foldAdd_find (gs : List (String × Int)) :
    ∀ ing n, findV (gs.foldl (fun g p => add_ingredient g p.1 p.2) ing) n =
      if n ∈ gs.map Prod.fst then some ((findV ing n).getD 0 + sumFor gs n)
      else findV ing n := by
  induction gs with
  | nil => intro ing n; simp
  | cons p gs ih =>
    intro ing n
    rw [List.foldl_cons, ih]
    by_cases hn : n = p.1
    · subst hn
      have hc : p.1 ∈ List.map Prod.fst (p :: gs) := by
        rw [List.map_cons]
        exact List.mem_cons_self _ _
      by_cases hmem : p.1 ∈ gs.map Prod.fst
      · rw [if_pos hmem, if_pos hc, add_ingredient_find_self, sumFor_cons, if_pos rfl]
        simp only [Option.getD_some]
        congr 1
        omega
      · rw [if_neg hmem, if_pos hc, add_ingredient_find_self, sumFor_cons, if_pos rfl,
          sumFor_eq_zero_of_not_mem gs p.1 hmem]
        congr 1
        omega
    · rw [add_ingredient_find_ne ing p.1 p.2 n hn]
      have hsum : sumFor (p :: gs) n = sumFor gs n := by
        rw [sumFor_cons, if_neg (fun he => hn he.symm), zero_add]
      by_cases hmem : n ∈ gs.map Prod.fst
      · rw [if_pos hmem, if_pos (by simp [hmem]), hsum]
      · rw [if_neg hmem, if_neg (by simp [hn, hmem])]

theorem findV_isSome_of_mem (m : List (String × Int)) (n : String)
    (h : n ∈ m.map Prod.fst) : ∃ c, findV m n = some c := by
  induction m with
  | nil => simp at h
  | cons p rest ih =>
    obtain ⟨k, v⟩ := p
    by_cases he : k = n
    · exact ⟨v, by rw [findV, if_pos he]⟩
    · simp only [List.map_cons, List.mem_cons] at h
      rcases h with h | h
    -- h : n = k contradicts he
      · exact absurd h.symm he
      · obtain ⟨c, hc⟩ := ih h
        exact ⟨c, by rw [findV, if_neg he]; exact hc⟩

theorem sumFor_of_findV_sorted (m : List (String × Int)) (n : String) (c : Int)
    (hks : KeysSorted m) (h : findV m n = some c) : sumFor m n = c := by
  induction m with
  | nil => cases h
  | cons p rest ih =>
    obtain ⟨k, v⟩ := p
    rw [KeysSorted, List.pairwise_cons] at hks
    rw [findV] at h
    by_cases he : k = n
    · rw [if_pos he] at h
      injection h with h2
      subst he
      subst h2
      rw [sumFor_cons, if_pos rfl]
      have hnm : k ∉ rest.map Prod.fst := by
        intro hmem
        obtain ⟨q, hq, hqe⟩ := List.mem_map.1 hmem
        exact absurd hqe (ne_of_gt (hks.1 q hq))
      rw [sumFor_eq_zero_of_not_mem rest k hnm, add_zero]
    · rw [if_neg he] at h
      rw [sumFor_cons, if_neg he, zero_add]
      exact ih hks.2 h

/-- A validated first trade section yields a group list ending exactly
at the validator's break index, with positive counts. -/
theorem tradeSec1_groups (w : List String) :
    ∀ fuel i j, tradeCheckSec1 w fuel i = some (some j) →
      ∃ gs, tradeGroupsF w fuel i = some (gs, j) ∧ ∀ g ∈ gs, (0 : Int) < g.2 := by
  intro fuel
  induction fuel with
  | zero =>
    intro i j hck
    cases hck
  | succ f ih =>
    intro i j hck
    rw [tradeCheckSec1] at hck
    rw [tradeGroupsF]
    by_cases hint : is_integer (wd w i) = false
    · rw [if_pos hint] at hck
      simp at hck
    · rw [if_neg hint] at hck
      rcases hs : stoi? (wd w i) with _ | cnt
      · rw [hs] at hck
        cases hck
      · rw [hs] at hck
        dsimp only at hck ⊢
        by_cases hc0 : cnt ≤ 0
        · rw [if_pos hc0] at hck
          simp at hck
        · rw [if_neg hc0] at hck
          by_cases hal : is_alphabetical (wd w (i + 1)) = false
          · rw [if_pos hal] at hck
            simp at hck
          · rw [if_neg hal] at hck
            by_cases hfor : wd w (i + 3) = "for"
            · rw [if_pos hfor] at hck
              rw [if_pos hfor]
              by_cases htr : wd w (i + 2) ≠ "trophy"
              · rw [if_pos htr] at hck
                simp at hck
              · rw [if_neg htr] at hck
                injection hck with h2
                injection h2 with h3
                subst h3
                refine ⟨[(wd w (i + 1), cnt)], rfl, ?_⟩
                intro g hg
                rcases List.mem_singleton.1 hg with rfl
                dsimp only
                omega
            · rw [if_neg hfor] at hck
              rw [if_neg hfor]
              by_cases hcm : wd w (i + 2) ≠ ","
              · rw [if_pos hcm] at hck
                simp at hck
              · rw [if_neg hcm] at hck
                obtain ⟨gs, hgs, hpos⟩ := ih (i + 3) j hck
                refine ⟨(wd w (i + 1), cnt) :: gs, by rw [hgs]; rfl, ?_⟩
                intro g hg
                rcases List.mem_cons.1 hg with rfl | hg
                · dsimp only
                  omega
                · exact hpos g hg

/-- `handle_trade`'s collecting loop, characterized by the listed
groups: it fails exactly when some listed group is insufficient against
the (unchanged) trophy ledger, and otherwise builds the overwrite map
of the groups and resumes past `"for"`. -/
theorem groups_collect (w : List String) (tr : List (String × Int)) :
    ∀ fuel i acc gs j, tradeGroupsF w fuel i = some (gs, j) →
      tradeCollect w tr fuel i acc =
        if gs.all (fun g => suffB tr g) then some (some (applyGroups acc gs, j))
        else some none := by
  intro fuel
  induction fuel with
  | zero =>
    intro i acc gs j hgs
    cases hgs
  | succ f ih =>
    intro i acc gs j hgs
    rw [tradeGroupsF] at hgs
    rw [tradeCollect]
    rcases hs : stoi? (wd w i) with _ | cnt
    · rw [hs] at hgs
      cases hgs
    · rw [hs] at hgs
      dsimp only at hgs ⊢
      by_cases hfor : wd w (i + 3) = "for"
      · rw [if_pos hfor] at hgs
        injection hgs with h2
        injection h2 with h3 h4
        subst h3
        subst h4
        rcases hfv : findV tr (wd w (i + 1)) with _ | v
        · have hsf : suffB tr (wd w (i + 1), cnt) = false := by
            rw [suffB, hfv]
          rw [List.all_cons, hsf]
          simp
        · dsimp only
          by_cases hv : v < cnt
          · rw [if_pos hv]
            have hsf : suffB tr (wd w (i + 1), cnt) = false := by
              rw [suffB, hfv]
              simp
              omega
            rw [List.all_cons, hsf]
            simp
          · rw [if_neg hv, if_pos hfor]
            have hsf : suffB tr (wd w (i + 1), cnt) = true := by
              rw [suffB, hfv]
              simp
              omega
            rw [List.all_cons, hsf]
            simp [applyGroups]
      · rw [if_neg hfor] at hgs
        rcases hrec : tradeGroupsF w f (i + 3) with _ | ⟨gs', j'⟩
        · rw [hrec] at hgs
          cases hgs
        · rw [hrec] at hgs
          simp only [Option.map_some'] at hgs
          injection hgs with h2
          injection h2 with h3 h4
          subst h3
          subst h4
          rcases hfv : findV tr (wd w (i + 1)) with _ | v
          · have hsf : suffB tr (wd w (i + 1), cnt) = false := by
              rw [suffB, hfv]
            rw [List.all_cons, hsf]
            simp
          · dsimp only
            by_cases hv : v < cnt
            · rw [if_pos hv]
              have hsf : suffB tr (wd w (i + 1), cnt) = false := by
                rw [suffB, hfv]
                simp
                omega
              rw [List.all_cons, hsf]
              simp
            · rw [if_neg hv, if_neg hfor]
              have hsf : suffB tr (wd w (i + 1), cnt) = true := by
                rw [suffB, hfv]
                simp
                omega
              rw [List.all_cons, hsf, Bool.true_and,
                ih (i + 3) (setV acc (wd w (i + 1)) cnt) gs' j' hrec]
              have happ : applyGroups acc ((wd w (i + 1), cnt) :: gs') =
                  applyGroups (setV acc (wd w (i + 1)) cnt) gs' := by
                rw [applyGroups, List.foldl_cons]
                rfl
              rw [happ]

/-- A validated loot section lets the group collection succeed. -/
theorem lootCheckF_collectF (w : List String) :
    ∀ fuel i, lootCheckLoopF w fuel i = some true →
      ∃ gs, collectIngsF w fuel i = some gs := by
  intro fuel
  induction fuel with
  | zero =>
    intro i h
    exact ⟨[], rfl⟩
  | succ f ih =>
    intro i h
    rw [lootCheckLoopF] at h
    rw [collectIngsF]
    by_cases hg : i + 2 ≤ w.length
    · rw [if_pos hg] at h
      rw [if_pos hg]
      by_cases hint : is_integer (wd w i) = false
      · rw [if_pos hint] at h
        simp at h
      · rw [if_neg hint] at h
        rcases hs : stoi? (wd w i) with _ | cnt
        · rw [hs] at h
          cases h
        · rw [hs] at h
          dsimp only at h
          by_cases hc0 : cnt ≤ 0
          · rw [if_pos hc0] at h
            simp at h
          · rw [if_neg hc0] at h
            by_cases hal : is_alphabetical (wd w (i + 1)) = false
            · rw [if_pos hal] at h
              simp at h
            · rw [if_neg hal] at h
              by_cases hcm : i + 4 ≤ w.length ∧ wd w (i + 2) ≠ ","
              · rw [if_pos hcm] at h
                simp at h
              · rw [if_neg hcm] at h
                obtain ⟨gs, hgs⟩ := ih (i + 3) h
                exact ⟨(wd w (i + 1), cnt) :: gs, by rw [hgs]; rfl⟩
    · rw [if_neg hg]
      exact ⟨[], rfl⟩

/-- The adding loop of `handle_loot`/`handle_trade` is the group
collection followed by `add_ingredient` on each group in order. -/
theorem lootAdd_eq_collect (w : List String) :
    ∀ fuel i ing, lootAddLoopF w fuel ing i =
      (collectIngsF w fuel i).map
        (fun gs => gs.foldl (fun g p => add_ingredient g p.1 p.2) ing) := by
  intro fuel
  induction fuel with
  | zero =>
    intro i ing
    rfl
  | succ f ih =>
    intro i ing
    rw [lootAddLoopF, collectIngsF]
    by_cases hg : i + 2 ≤ w.length
    · rw [if_pos hg, if_pos hg]
      rcases hs : stoi? (wd w i) with _ | cnt
      · rfl
      · dsimp only
        rw [ih (i + 3) (add_ingredient ing (wd w (i + 1)) cnt), Option.map_map]
        have hfun : (fun gs : List (String × Int) =>
              gs.foldl (fun g p => add_ingredient g p.1 p.2)
                (add_ingredient ing (wd w (i + 1)) cnt)) =
            ((fun gs : List (String × Int) =>
                gs.foldl (fun g p => add_ingredient g p.1 p.2) ing) ∘
              (fun rest => (wd w (i + 1), cnt) :: rest)) := by
          funext gs
          simp [List.foldl_cons]
        rw [hfun]
    · rw [if_neg hg, if_neg hg]
      rfl

/-- Folding `decrease_trophy` over a sorted map of nonnegative counts,
characterized per name. -/
theorem foldDec_find (m : List (String × Int)) (hksm : KeysSorted m)
    (hnn : ∀ p ∈ m, (0 : Int) ≤ p.2)
    (tr : List (String × Int)) (hks : KeysSorted tr) (n : String) :
    findV (m.foldl (fun t p => decrease_trophy t p.1 p.2) tr) n =
      match findV m n with
      | none => findV tr n
      | some c =>
        match findV tr n with
        | none => none
        | some v => if v - c ≤ 0 then none else some (v - c) := by
  have heq : (fun (t : List (String × Int)) (p : String × Int) =>
        decrease_trophy t p.1 p.2) =
      (fun (g : List (String × Int)) (p : String × Int) =>
        use_ingredient g p.1 p.2) := by
    funext t p
    rw [decrease_trophy, use_ingredient]
  rw [heq, foldUse_find m tr hks hnn n]
  rcases hf : findV m n with _ | c
  · have hnot : n ∉ m.map Prod.fst := by
      intro hmem
      obtain ⟨c, hc⟩ := findV_isSome_of_mem m n hmem
      rw [hf] at hc
      cases hc
    rw [if_neg hnot]
  · have hmem : n ∈ m.map Prod.fst :=
      List.mem_map.2 ⟨(n, c), findV_some_mem m n c hf, rfl⟩
    rw [if_pos hmem, sumFor_of_findV_sorted m n c hksm hf]
    rcases findV tr n with _ | v
    · rfl
    · dsimp only
      by_cases hle : v - c ≤ 0
      · rw [if_neg (by omega), if_pos hle]
      · rw [if_pos (by omega), if_neg hle]

/-- C1 counterexample: the trade sentence lists the trophy `Harpy`
twice (2 each), against a ledger holding 3.  `handle_trade` stores the
groups in a `std::map` whose assignment overwrites, so only the last
listing is decremented: the trade succeeds and leaves `Harpy ↦ 1`.
Under the claim's reading — every listed trophy decremented by its
requested count — the two listings would take 2 + 2 = 4 from 3 and the
entry would be removed. -/
theorem c1_counterexample :
    tradeGroupsF (splitLine "Geralt trades 2 Harpy, 2 Harpy trophy for 1 Rebis") 12 2 =
      some ([("Harpy", 2), ("Harpy", 2)], 9) ∧
    handle_trade ⟨[], [("Harpy", 3)], [], [], []⟩
        (splitLine "Geralt trades 2 Harpy, 2 Harpy trophy for 1 Rebis") =
      some (⟨[("Rebis", 1)], [("Harpy", 1)], [], [], []⟩, "Trade successful") ∧
    [("Harpy", (2 : Int)), ("Harpy", 2)].foldl
        (fun t p => decrease_trophy t p.1 p.2) [("Harpy", 3)] = [] := by
  exact ⟨by decide, by decide, by decide⟩

/-- C1 (amended): for a valid Trade sentence over a sorted trophy
ledger, with `gs` the listed trophy groups (in order, duplicates kept)
and `ings` the requested ingredient groups: if some listed group is
insufficient against the unchanged ledger, the whole trade fails with
the failure response and no state change; otherwise the trade succeeds,
each trophy name is decremented by the count of its LAST listing only
(duplicate listings overwrite in the group map; entries reaching zero
or below are removed), and each ingredient name gains the SUM of its
requested counts. -/
theorem c1_trade (st : Inventory) (w : List String)
    (hks : KeysSorted st.trophies) (hv : is_valid_trade w = some true) :
    ∃ gs j ings,
      tradeGroupsF w (w.length + 1) 2 = some (gs, j) ∧
      collectIngs w j = some ings ∧
      ((∃ g ∈ gs, ∀ v, findV st.trophies g.1 = some v → v < g.2) →
        handle_trade st w = some (st, "Not enough trophies")) ∧
      ((∀ g ∈ gs, ∃ v, findV st.trophies g.1 = some v ∧ g.2 ≤ v) →
        ∃ st', handle_trade st w = some (st', "Trade successful") ∧
          st'.potion_counts = st.potion_counts ∧ st'.potions = st.potions ∧
          st'.monsters = st.monsters ∧
          (∀ n, findV st'.trophies n =
            match lastListed gs n with
            | none => findV st.trophies n
            | some c =>
              match findV st.trophies n with
              | none => none
              | some v => if v - c ≤ 0 then none else some (v - c)) ∧
          (∀ n, findV st'.ingredients n =
            if n ∈ ings.map Prod.fst then
              some ((findV st.ingredients n).getD 0 + sumFor ings n)
            else findV st.ingredients n)) := by
  rw [is_valid_trade] at hv
  rcases hsec : tradeCheckSec1 w (w.length + 1) 2 with _ | (_ | j)
  · rw [hsec] at hv
    cases hv
  · rw [hsec] at hv
    simp at hv
  · rw [hsec] at hv
    dsimp only at hv
    by_cases hmod : (w.length - j) % 3 ≠ 2
    · rw [if_pos hmod] at hv
      simp at hv
    · rw [if_neg hmod] at hv
      obtain ⟨gs, hgs, hpos⟩ := tradeSec1_groups w (w.length + 1) 2 j hsec
      rw [lootCheckLoop] at hv
      obtain ⟨ings, hings⟩ := lootCheckF_collectF w w.length j hv
      refine ⟨gs, j, ings, hgs, by rw [collectIngs]; exact hings, ?_, ?_⟩
      · intro hbad
        obtain ⟨g, hg, hins⟩ := hbad
        have hne : ¬(gs.all (fun g => suffB st.trophies g) = true) := by
          intro hall
          rw [List.all_eq_true] at hall
          have hsg := hall g hg
          rw [suffB] at hsg
          rcases hfv : findV st.trophies g.1 with _ | v
          · rw [hfv] at hsg
            cases hsg
          · rw [hfv] at hsg
            simp at hsg
            have := hins v hfv
            omega
        rw [handle_trade, groups_collect w st.trophies (w.length + 1) 2 [] gs j hgs,
          if_neg hne]
      · intro hsuff
        have hall : gs.all (fun g => suffB st.trophies g) = true := by
          rw [List.all_eq_true]
          intro g hg
          obtain ⟨v, hfv, hle⟩ := hsuff g hg
          rw [suffB, hfv]
          simp
          omega
        rw [handle_trade, groups_collect w st.trophies (w.length + 1) 2 [] gs j hgs,
          if_pos hall]
        dsimp only
        rw [lootAddLoop, lootAdd_eq_collect w w.length j st.ingredients, hings]
        simp only [Option.map_some']
        refine ⟨_, rfl, rfl, rfl, rfl, ?_, ?_⟩
        · intro n
          dsimp only
          have hksm : KeysSorted (applyGroups [] gs) :=
            applyGroups_keysSorted gs [] List.Pairwise.nil
          have hnn : ∀ p ∈ applyGroups [] gs, (0 : Int) ≤ p.2 :=
            fun p hp => le_of_lt (applyGroups_pos gs []
              (fun q hq => absurd hq (List.not_mem_nil q)) hpos p hp)
          rw [foldDec_find (applyGroups [] gs) hksm hnn st.trophies hks n,
            findV_applyGroups gs [] n]
          rcases lastListed gs n with _ | c
          · rfl
          · rfl
        · intro n
          dsimp only
          rw [foldAdd_find ings st.ingredients n]

/-- C1 witness: the amended theorem applied to the duplicate-listing
trade against a sorted one-entry trophy ledger. -/
theorem c1_trade_witness :
    KeysSorted [("Harpy", (3 : Int))] ∧
    is_valid_trade (splitLine "Geralt trades 2 Harpy, 2 Harpy trophy for 1 Rebis") =
      some true ∧
    (∃ gs j ings,
      tradeGroupsF (splitLine "Geralt trades 2 Harpy, 2 Harpy trophy for 1 Rebis")
          ((splitLine "Geralt trades 2 Harpy, 2 Harpy trophy for 1 Rebis").length + 1) 2 =
        some (gs, j) ∧
      collectIngs (splitLine "Geralt trades 2 Harpy, 2 Harpy trophy for 1 Rebis") j =
        some ings ∧
      ((∃ g ∈ gs, ∀ v, findV [("Harpy", (3 : Int))] g.1 = some v → v < g.2) →
        handle_trade ⟨[], [("Harpy", 3)], [], [], []⟩
            (splitLine "Geralt trades 2 Harpy, 2 Harpy trophy for 1 Rebis") =
          some (⟨[], [("Harpy", 3)], [], [], []⟩, "Not enough trophies")) ∧
      ((∀ g ∈ gs, ∃ v, findV [("Harpy", (3 : Int))] g.1 = some v ∧ g.2 ≤ v) →
        ∃ st', handle_trade ⟨[], [("Harpy", 3)], [], [], []⟩
            (splitLine "Geralt trades 2 Harpy, 2 Harpy trophy for 1 Rebis") =
            some (st', "Trade successful") ∧
          st'.potion_counts = [] ∧ st'.potions = [] ∧ st'.monsters = [] ∧
          (∀ n, findV st'.trophies n =
            match lastListed gs n with
            | none => findV [("Harpy", (3 : Int))] n
            | some c =>
              match findV [("Harpy", (3 : Int))] n with
              | none => none
              | some v => if v - c ≤ 0 then none else some (v - c)) ∧
          (∀ n, findV st'.ingredients n =
            if n ∈ ings.map Prod.fst then
              some ((findV ([] : List (String × Int)) n).getD 0 + sumFor ings n)
            else findV ([] : List (String × Int)) n))) :=
  ⟨by unfold KeysSorted; simp, by decide,
    c1_trade ⟨[], [("Harpy", 3)], [], [], []⟩
      (splitLine "Geralt trades 2 Harpy, 2 Harpy trophy for 1 Rebis")
      (by unfold KeysSorted; simp) (by decide)⟩
